import Mathlib

/-!
Verification of the schema-introspection and migration-step-application core
of the prisma-engines repository, as described by its specification.

The definitions below are shallow embeddings of the Rust sources:

* `libs/sql-schema-describer/src/sqlite.rs` — the SQLite schema describer
  (column/primary-key recovery, foreign-key grouping and shorthand
  resolution, index listing, string-default unquoting);
* `migration-engine/connectors/sql-migration-connector/src/sql_database_step_applier.rs`
  — the step applier (`apply_next_step`, `render_script`, `apply_script`).

Machine integers from the sources (`i64`, `usize`) are modelled as `Int`/`Nat`
with explicit wrap-around where a cast occurs.  Fallible code is modelled with
`Option`/`Except`.  Database I/O is modelled by passing the catalog rows a
query would return (resp. an execution oracle for `raw_cmd`) as explicit
arguments.
-/

namespace Prisma


/-- The single-quote character (code point 39), named to keep source text free
of bare apostrophes. -/
def squote : Char := Char.ofNat 39

/-- The double-quote character (code point 34). -/
def dquote : Char := Char.ofNat 34

/-! ### `unquote_sqlite_string_default` (sqlite.rs, lines 516-524) -/

/-- Replace every pair of consecutive single quotes by one single quote,
scanning left to right without overlap.  This is the semantics of
`SQLITE_ESCAPED_CHARACTER_RE.replace_all(s, "'")` with pattern `''`. -/
def unescapeQuotes : List Char → List Char
  | [] => []
  | [c] => [c]
  | c :: c2 :: rest =>
    if c = squote ∧ c2 = squote then squote :: unescapeQuotes rest
    else c :: unescapeQuotes (c2 :: rest)

/-- Strip one layer of matching outer quotes (single or double).  This is the
semantics, on inputs that are themselves quoted strings, of the anchored
replacement `SQLITE_STRING_DEFAULT_RE.replace(s, "$1$2")` with pattern
`(?ms)^'(.*)'$|^"(.*)"$`: on a string whose first and last characters are the
same quote character the greedy anchored pattern captures exactly the middle;
on a string not of that shape the pattern finds no match at position 0 and the
input is returned unchanged. -/
def stripQuotedL (cs : List Char) : List Char :=
  match cs with
  | c :: rest =>
    if (c = squote ∨ c = dquote) ∧ rest.getLast? = some c then rest.dropLast
    else cs
  | [] => cs

/-- `unquote_sqlite_string_default` from sqlite.rs: strip outer SQL quotes,
then un-escape doubled single quotes. -/
def unquote_sqlite_string_default (s : String) : String :=
  ⟨unescapeQuotes (stripQuotedL s.data)⟩

/-- `DatabaseError` from io_shell.rs: message plus optional vendor code. -/
structure DatabaseError where
  message : String
  error_code : Option String
deriving DecidableEq, Repr

/-- Execute statements in order through the `raw_cmd` oracle, stopping at the
first failure; returns the trace of issued statements and the first error, if
any.  This is the loop body of `apply_next_step`. -/
def runStatements (exec : String → Option DatabaseError) :
    List String → List String × Option DatabaseError
  | [] => ([], none)
  | s :: rest =>
    match exec s with
    | some e => ([s], some e)
    | none =>
      let (tr, r) := runStatements exec rest
      (s :: tr, r)

/-- `SqlMigrationConnector::apply_next_step`: out-of-range index
(`steps.get(index).is_none()`) returns `Ok(false)` without touching the
connection; otherwise the step is rendered and each statement executed in
order; the first failing statement short-circuits the loop (the `?` operator)
and its error is propagated, else the call returns `Ok(true)`. -/
def apply_next_step {σ : Type} (render : σ → List String)
    (steps : List σ) (index : Nat) (exec : String → Option DatabaseError) :
    List String × Except DatabaseError Bool :=
  if h : index < steps.length then
    ((runStatements exec (render steps[index])).1,
      match (runStatements exec (render steps[index])).2 with
      | some e => Except.error e
      | none => Except.ok true)
  else ([], Except.ok false)

/-- `ColumnArity` from the describer crate. -/
inductive ColumnArity where
  | required | nullable | list
deriving DecidableEq, Repr

/-- `ColumnTypeFamily` from the describer crate (variants used by sqlite.rs). -/
inductive ColumnTypeFamily where
  | int | bigInt | float | decimal | boolean | string | dateTime | binary
  | json | uuid
  | enum (name : String)
  | unsupported (raw : String)
deriving DecidableEq, Repr

/-- `ColumnType`.  The SQLite describer always sets `native_type: None`; the
payload type of a present native type is irrelevant here and modelled by
`Unit`. -/
structure ColumnType where
  full_data_type : String
  family : ColumnTypeFamily
  arity : ColumnArity
  native_type : Option Unit
deriving DecidableEq, Repr

/-- The `PrismaValue` payloads producible by the SQLite default-value parsing.
`float` carries the source text of the parsed literal (the numeric payload
type does not matter to any claim). -/
inductive PrismaValue where
  | int (n : Int)
  | boolean (b : Bool)
  | string (s : String)
  | enum (s : String)
  | float (raw : String)
deriving DecidableEq, Repr

/-- `DefaultValue`: a literal value, the `now` sentinel, or an opaque
database-generated expression. -/
inductive DefaultValue where
  | value (v : PrismaValue)
  | now
  | dbGenerated (expr : String)
deriving DecidableEq, Repr

/-- `Column`. -/
structure Column where
  name : String
  tpe : ColumnType
  default : Option DefaultValue
  auto_increment : Bool
deriving DecidableEq, Repr

/-- `PrimaryKey`.  The SQLite describer always sets `sequence: None`; the
`Sequence` payload is modelled by `Unit`. -/
structure PrimaryKey where
  columns : List String
  sequence : Option Unit
  constraint_name : Option String
deriving DecidableEq, Repr

/-! ### `get_column_type` (sqlite.rs, lines 467-509) -/

/-- Lowercasing, modelling `str::to_lowercase`: characterwise `Char.toLower`
(ASCII; every string the describer compares against is ASCII, where the two
agree). -/
def strToLower (s : String) : String :=
  ⟨s.data.map Char.toLower⟩

/-- Substring test on character lists (`str::contains` for literal needles). -/
def containsSub (hay needle : List Char) : Bool :=
  hay.tails.any (fun t => needle.isPrefixOf t)

/-- `get_column_type`: map the raw type string, lowercased, to a column-type
family via the ordered literal / substring rules of the source `match`.
(`to_lowercase` is modelled by `strToLower`; all the compared literals are
ASCII, where the two agree.) -/
def get_column_type (tpe : String) (arity : ColumnArity) : ColumnType :=
  let tpe_lower := strToLower tpe
  let family : ColumnTypeFamily :=
    if tpe_lower = ("int") then .int
    else if tpe_lower = ("integer") then .int
    else if tpe_lower = ("bigint") then .bigInt
    else if tpe_lower = ("real") then .float
    else if tpe_lower = ("float") then .float
    else if tpe_lower = ("serial") then .int
    else if tpe_lower = ("boolean") then .boolean
    else if tpe_lower = ("text") then .string
    else if containsSub tpe_lower.data (("char").data) then .string
    else if containsSub tpe_lower.data (("numeric").data) then .decimal
    else if containsSub tpe_lower.data (("decimal").data) then .decimal
    else if tpe_lower = ("date") then .dateTime
    else if tpe_lower = ("datetime") then .dateTime
    else if tpe_lower = ("timestamp") then .dateTime
    else if tpe_lower = ("binary") ∨ tpe_lower = ("blob") then .binary
    else if tpe_lower = ("double") then .float
    else if tpe_lower = ("binary[]") then .binary
    else if tpe_lower = ("boolean[]") then .boolean
    else if tpe_lower = ("date[]") then .dateTime
    else if tpe_lower = ("datetime[]") then .dateTime
    else if tpe_lower = ("timestamp[]") then .dateTime
    else if tpe_lower = ("double[]") then .float
    else if tpe_lower = ("float[]") then .float
    else if tpe_lower = ("int[]") then .int
    else if tpe_lower = ("integer[]") then .int
    else if tpe_lower = ("text[]") then .string
    else if (("decimal").data).isPrefixOf tpe_lower.data then .decimal
    else .unsupported tpe_lower
  { full_data_type := tpe, family := family, arity := arity, native_type := none }

/-! ### `get_columns` (sqlite.rs, lines 175-302) -/

/-- One row of `PRAGMA table_info`: `cid|name|type|notnull|dflt_value|pk`.
The describer reads columns 1-5 and unwraps the expected ones, so the row is
modelled with those fields present (`dflt_value` genuinely nullable).  `pk`
is the 1-based position of the column inside the primary key, `0` when the
column is not part of it. -/
structure TableInfoRow where
  name : String
  tpe : String
  notnull : Bool
  dflt_value : Option String
  pk : Int
deriving DecidableEq, Repr

/-- The spelling `datetime('now')`, built characterwise. -/
def dtNowLit : String :=
  ⟨['d', 'a', 't', 'e', 't', 'i', 'm', 'e', '(', squote, 'n', 'o', 'w', squote, ')']⟩

/-- The spelling `datetime('now', 'localtime')`, built characterwise. -/
def dtNowLocalLit : String :=
  ⟨['d', 'a', 't', 'e', 't', 'i', 'm', 'e', '(', squote, 'n', 'o', 'w', squote, ',', ' ',
    squote, 'l', 'o', 'c', 'a', 'l', 't', 'i', 'm', 'e', squote, ')']⟩

/-- The family-dependent default-value classification of `get_columns`.  The
numeric/boolean literal parsers (`crate::parsers::Parser`, whose sources are
outside the repository snapshot) are passed as parameters; everything else is
translated from the `match &tpe.family` expression in the source. -/
def defaultFromCatalog (parse_int parse_big_int parse_float : String → Option PrismaValue)
    (parse_bool : String → Option Bool)
    (family : ColumnTypeFamily) (raw : Option String) : Option DefaultValue :=
  match raw with
  | none => none
  | some default_string =>
    if strToLower default_string = ("null") then none
    else some (match family with
      | .int =>
        match parse_int default_string with
        | some v => .value v
        | none => .dbGenerated default_string
      | .bigInt =>
        match parse_big_int default_string with
        | some v => .value v
        | none => .dbGenerated default_string
      | .float =>
        match parse_float default_string with
        | some v => .value v
        | none => .dbGenerated default_string
      | .decimal =>
        match parse_float default_string with
        | some v => .value v
        | none => .dbGenerated default_string
      | .boolean =>
        match parse_int default_string with
        | some (.int 1) => .value (.boolean true)
        | some (.int 0) => .value (.boolean false)
        | _ =>
          match parse_bool default_string with
          | some b => .value (.boolean b)
          | none => .dbGenerated default_string
      | .string => .value (.string (unquote_sqlite_string_default default_string))
      | .dateTime =>
        if strToLower default_string = ("current_timestamp") ∨
            strToLower default_string = dtNowLit ∨ strToLower default_string = dtNowLocalLit then
          .now
        else .dbGenerated default_string
      | .binary => .dbGenerated default_string
      | .json => .dbGenerated default_string
      | .uuid => .dbGenerated default_string
      | .enum _ => .value (.enum default_string)
      | .unsupported _ => .dbGenerated default_string)

/-- The per-row column construction of `get_columns` (arity from `notnull`,
type via `get_column_type`, default via the family dispatch,
`auto_increment: false`). -/
def mkColumn (parse_int parse_big_int parse_float : String → Option PrismaValue)
    (parse_bool : String → Option Bool) (r : TableInfoRow) : Column :=
  let arity := if r.notnull then ColumnArity.required else ColumnArity.nullable
  let tpe := get_column_type r.tpe arity
  { name := r.name
    tpe := tpe
    default := defaultFromCatalog parse_int parse_big_int parse_float parse_bool
      tpe.family r.dflt_value
    auto_increment := false }

/-- Association-list insert with overwrite: the meaning of
`HashMap::insert`. A fresh key is appended at the end, so iteration order of
the model is first-insertion order (any fixed order is sound here because the
map is only read back through its sorted key list). -/
def insertAL (k : Int) (v : String) : List (Int × String) → List (Int × String)
  | [] => [(k, v)]
  | (k2, v2) :: rest => if k = k2 then (k, v) :: rest else (k2, v2) :: insertAL k v rest

/-- The `pk_cols` map of `get_columns`: every row with `pk > 0` contributes
`pk ↦ name`. (The source fills the map inside the same traversal that builds
the column list; the two are split into separate passes over the same rows.) -/
def pkColsAL (rows : List TableInfoRow) : List (Int × String) :=
  rows.foldl (fun m r => if 0 < r.pk then insertAL r.pk r.name m else m) []

/-- `get_columns`: build the columns, recover the primary key from the
`pk`-flagged rows ordered by their key sequence number, and, when the primary
key is a single column whose raw type is `INTEGER` (case-insensitively), mark
that column auto-increment.  `(pk_cols.lookup i).getD` stands for the
infallible `pk_cols[i]` indexing (the keys are drawn from the same map). -/
def get_columns (parse_int parse_big_int parse_float : String → Option PrismaValue)
    (parse_bool : String → Option Bool) (rows : List TableInfoRow) :
    List Column × Option PrimaryKey :=
  let cols := rows.map (mkColumn parse_int parse_big_int parse_float parse_bool)
  let pk_cols := pkColsAL rows
  if pk_cols.isEmpty then (cols, none)
  else
    let col_idxs := List.insertionSort (fun a b : Int => a ≤ b) (pk_cols.map Prod.fst)
    let columns := col_idxs.map (fun i => ((pk_cols.lookup i).getD ("")))
    let cols :=
      if pk_cols.length = 1 then
        let pk_col := columns.headD ("")
        cols.map (fun c =>
          if c.name = pk_col ∧ (strToLower c.tpe.full_data_type) = ("integer") then
            { c with auto_increment := true }
          else c)
      else cols
    (cols, some { columns := columns, sequence := none, constraint_name := none })

/-- The `(pk, name)` pairs of the `pk`-flagged rows, in row order: the
reference characterization of the `pk_cols` map contents. -/
def pkPairs (rows : List TableInfoRow) : List (Int × String) :=
  rows.filterMap (fun r => if 0 < r.pk then some (r.pk, r.name) else none)

/-- Catalog rows of a composite-pk table, pk columns declared out of order. -/
def c7RowsA : List TableInfoRow :=
  [{ name := ("b"), tpe := ("text"), notnull := true, dflt_value := none, pk := 2 },
   { name := ("a"), tpe := ("int"), notnull := true, dflt_value := none, pk := 1 }]

/-- The same rows in the opposite declaration order. -/
def c7RowsB : List TableInfoRow :=
  [{ name := ("a"), tpe := ("int"), notnull := true, dflt_value := none, pk := 1 },
   { name := ("b"), tpe := ("text"), notnull := true, dflt_value := none, pk := 2 }]

/-- Catalog rows of a table with a single INTEGER primary-key column. -/
def c6RowsA : List TableInfoRow :=
  [{ name := ("id"), tpe := ("INTEGER"), notnull := true, dflt_value := none, pk := 1 },
   { name := ("x"), tpe := ("text"), notnull := false, dflt_value := none, pk := 0 }]

/-- Catalog rows of a table with a two-column primary key. -/
def c6RowsB : List TableInfoRow :=
  [{ name := ("a"), tpe := ("INTEGER"), notnull := true, dflt_value := none, pk := 1 },
   { name := ("b"), tpe := ("INTEGER"), notnull := true, dflt_value := none, pk := 2 }]

/-- `ForeignKeyAction` (the five actions parsed by the SQLite describer). -/
inductive ForeignKeyAction where
  | noAction | restrict | setNull | setDefault | cascade
deriving DecidableEq, Repr

/-- `ForeignKey`. -/
structure ForeignKey where
  columns : List String
  referenced_table : String
  referenced_columns : List String
  on_delete_action : ForeignKeyAction
  on_update_action : ForeignKeyAction
  constraint_name : Option String
deriving DecidableEq, Repr

/-- `IndexType` (Unique / Normal / Fulltext). -/
inductive IndexType where
  | unique | normal | fulltext
deriving DecidableEq, Repr

/-- `Index`. -/
structure Index where
  name : String
  tpe : IndexType
  columns : List String
deriving DecidableEq, Repr

/-- `Table`. -/
structure Table where
  name : String
  columns : List Column
  indices : List Index
  primary_key : Option PrimaryKey
  foreign_keys : List ForeignKey
deriving DecidableEq, Repr

/-! ### `describe` post-processing (sqlite.rs, lines 41-83) -/

/-- Modelled from the spec: `purge_dangling_foreign_keys` lives in
`crate::common`, whose source file is not part of the snapshot.  Per the
spec (§3, §4.2 step 6): "purge any foreign key whose referenced table does
not exist in the assembled schema"; every other part of each table is kept
as-is. -/
def purge_dangling_foreign_keys (tables : List Table) : List Table :=
  tables.map (fun t =>
    { t with foreign_keys :=
        (t.foreign_keys.filter (fun fk => tables.any (fun t2 => t2.name = fk.referenced_table))) })

/-- The referenced-column list substituted for a shorthand foreign key:
`tables.iter().find(..).unwrap().primary_key.as_ref().unwrap().columns`.
`none` marks the two panic branches (referenced table absent / without a
primary key). -/
def fkTargetCols (tables : List Table) (fk : ForeignKey) : Option (List String) :=
  match tables.find? (fun t => t.name = fk.referenced_table) with
  | none => none
  | some rt =>
    match rt.primary_key with
    | none => none
    | some pk => some pk.columns

/-- Inner loop of the first pass of the shorthand-FK resolution in
`describe`: walk the enumerated foreign keys of table `ti` and collect one
`(table_index, fk_index, columns)` triple per foreign key with an empty
referenced-column list. -/
def tableTargets (tables : List Table) (ti : Nat) :
    List (Nat × ForeignKey) → Option (List (Nat × Nat × List String))
  | [] => some []
  | (fi, fk) :: rest =>
    if fk.referenced_columns.isEmpty then
      match fkTargetCols tables fk with
      | none => none
      | some cols =>
        match tableTargets tables ti rest with
        | none => none
        | some us => some ((ti, fi, cols) :: us)
    else tableTargets tables ti rest

/-- Outer loop of the first pass: over the enumerated tables. -/
def allTargets (tables : List Table) :
    List (Nat × Table) → Option (List (Nat × Nat × List String))
  | [] => some []
  | (ti, t) :: rest =>
    match tableTargets tables ti t.foreign_keys.enum with
    | none => none
    | some us =>
      match allTargets tables rest with
      | none => none
      | some vs => some (us ++ vs)

/-- The `foreign_keys_without_referenced_columns` vector of `describe`
(first pass), `none` when one of the unwraps would panic. -/
def shorthandTargets (tables : List Table) : Option (List (Nat × Nat × List String)) :=
  allTargets tables tables.enum

/-- One assignment of the second pass:
`tables[table_index].foreign_keys[fk_index].referenced_columns = columns`. -/
def applyFkUpdate (ts : List Table) (u : Nat × Nat × List String) : List Table :=
  List.modify (fun t =>
    { t with foreign_keys :=
        (List.modify (fun fk => { fk with referenced_columns := u.2.2 }) u.2.1 t.foreign_keys) })
    u.1 ts

/-- The shorthand-foreign-key resolution pass of `describe` (both passes):
collect the triples over the unmodified tables, then apply the assignments. -/
def resolveShorthandFks (tables : List Table) : Option (List Table) :=
  (shorthandTargets tables).map (fun targets => targets.foldl applyFkUpdate tables)

/-- The skeleton of a table: everything except the contents of its
foreign-key list (whose length is still recorded). -/
def tableSkel (t : Table) : String × List Column × List Index × Option PrimaryKey × Nat :=
  (t.name, t.columns, t.indices, t.primary_key, t.foreign_keys.length)

/-- The foreign key at table position `ti`, foreign-key position `fi`. -/
def fkAt (ts : List Table) (ti fi : Nat) : Option ForeignKey :=
  match ts[ti]? with
  | none => none
  | some t => t.foreign_keys[fi]?

/-- The canonical value of the collected triples for one enumerated table. -/
def targetGroup (tables : List Table) (q : Nat × Table) : List (Nat × Nat × List String) :=
  (q.2.foreign_keys.enum.filter (fun p => p.2.referenced_columns.isEmpty)).map
    (fun p => (q.1, p.1, ((fkTargetCols tables p.2).getD [])))

/-- The `(table_index, fk_index)` component of a collected triple. -/
def targetKey (u : Nat × Nat × List String) : Nat × Nat := (u.1, u.2.1)

/-- A shorthand foreign key of table `A` referencing table `B` without
naming referenced columns. -/
def fkDemoFk : ForeignKey where
  columns := [("b_id")]
  referenced_table := ("B")
  referenced_columns := []
  on_delete_action := ForeignKeyAction.noAction
  on_update_action := ForeignKeyAction.noAction
  constraint_name := none

/-- The referenced table `B`, with primary key `[id]`. -/
def fkDemoTableB : Table where
  name := ("B")
  columns := []
  indices := []
  primary_key := some { columns := [("id")], sequence := none, constraint_name := none }
  foreign_keys := []

/-- A snapshot with a shorthand foreign key: table `A` references table `B`
without naming referenced columns; `B` has primary key `[id]`. -/
def fkDemoTables : List Table :=
  [{ name := ("A"), columns := [], indices := [], primary_key := none,
     foreign_keys := [fkDemoFk] },
   fkDemoTableB]

/-- The expected outcome of the resolution pass on `fkDemoTables`. -/
def fkDemoResolved : List Table :=
  [{ name := ("A"), columns := [], indices := [], primary_key := none,
     foreign_keys := [{ fkDemoFk with referenced_columns := [("id")] }] },
   fkDemoTableB]

/-- One row of `PRAGMA index_list`: `seq|name|unique|origin|partial` (the
fields the describer reads; the `partial` column is named `partialFlag`
here). -/
structure IndexListRow where
  name : String
  unique : Bool
  origin : String
  partialFlag : Bool
deriving DecidableEq, Repr

/-- One row of `PRAGMA index_info`: `seqno|cid|name`; the column name is null
when the indexed expression is a rowid or an expression. -/
structure IndexInfoRow where
  seqno : Int
  colname : Option String
deriving DecidableEq, Repr

/-- The `as usize` cast of an `i64` (two's-complement reinterpretation,
i.e. the value modulo `2^64`). -/
def usizeOfI64 (i : Int) : Nat := (i % (2 ^ 64 : Int)).toNat

/-- `if index.columns.len() <= pos { index.columns.resize(pos + 1, "") }`
followed by `index.columns[pos] = name`. -/
def setAt (cols : List String) (pos : Nat) (v : String) : List String :=
  let cols :=
    if cols.length ≤ pos then cols ++ List.replicate (pos + 1 - cols.length) ("") else cols
  cols.set pos v

/-- The inner `PRAGMA index_info` loop of `get_indices`: place each named
column at its ordinal position; an anonymous (null-name) entry executes
`break 'index_loop`, modelled as `none`. -/
def collectIndexColumns : List IndexInfoRow → List String → Option (List String)
  | [], acc => some acc
  | r :: rest, acc =>
    match r.colname with
    | some n => collectIndexColumns rest (setAt acc (usizeOfI64 r.seqno) n)
    | none => none

/-- The `Index` built for one `index_list` row. -/
def mkIndexFrom (r : IndexListRow) (cols : List String) : Index :=
  { name := r.name
    tpe := if r.unique then IndexType.unique else IndexType.normal
    columns := cols }

/-- The labeled outer loop of `get_indices` over the filtered `index_list`
rows.  `break 'index_loop` terminates this whole loop *before* the
`indices.push(index)` of the current iteration, so an anonymous column drops
the index being built and every later index. -/
def getIndicesLoop (infoOf : String → List IndexInfoRow) : List IndexListRow → List Index
  | [] => []
  | r :: rest =>
    match collectIndexColumns (infoOf r.name) [] with
    | some cols => mkIndexFrom r cols :: getIndicesLoop infoOf rest
    | none => []

/-- `get_indices`: exclude primary-key-backing (`origin == "pk"`) and partial
indexes, then run the labeled loop.  `infoOf` maps an index name to the rows
of `PRAGMA index_info` for it. -/
def get_indices (rows : List IndexListRow) (infoOf : String → List IndexInfoRow) :
    List Index :=
  getIndicesLoop infoOf
    ((rows.filter (fun r => r.origin ≠ ("pk"))).filter (fun r => !r.partialFlag))

/-- Modelled from the spec: the index-listing behaviour as worded in §4.2
step 5 — on an anonymous column "stop collecting further columns for that
index — only the already-known prefix is kept", the index itself and all
other non-excluded indexes still being returned.  Stated for comparison with
`get_indices`. -/
def collectIndexColumnsSpecced : List IndexInfoRow → List String → List String
  | [], acc => acc
  | r :: rest, acc =>
    match r.colname with
    | some n => collectIndexColumnsSpecced rest (setAt acc (usizeOfI64 r.seqno) n)
    | none => acc

/-- Modelled from the spec: the whole index-listing operation as the spec
words it (exclusions as in the code, every surviving index returned with the
collected column prefix). -/
def get_indices_specced (rows : List IndexListRow)
    (infoOf : String → List IndexInfoRow) : List Index :=
  ((rows.filter (fun r => r.origin ≠ ("pk"))).filter (fun r => !r.partialFlag)).map
    (fun r => mkIndexFrom r (collectIndexColumnsSpecced (infoOf r.name) []))

/-- Index-list rows for a table with two non-partial, non-pk indexes. -/
def c2Rows : List IndexListRow :=
  [{ name := ("i1"), unique := false, origin := ("c"), partialFlag := false },
   { name := ("i2"), unique := false, origin := ("c"), partialFlag := false }]

/-- `index_info` rows: `i1` is an expression index (anonymous column at
position 0), `i2` a plain two-column index. -/
def c2Info : String → List IndexInfoRow := fun n =>
  if n = ("i1") then [{ seqno := 0, colname := none }]
  else [{ seqno := 0, colname := some ("a") }, { seqno := 1, colname := some ("b") }]

/-- Index-list rows for a table with one partial index and one two-column
non-partial index. -/
def c2WRows : List IndexListRow :=
  [{ name := ("part_idx"), unique := false, origin := ("c"), partialFlag := true },
   { name := ("full_idx"), unique := true, origin := ("c"), partialFlag := false }]

/-- `index_info` rows for the witness table (all columns named). -/
def c2WInfo : String → List IndexInfoRow := fun _ =>
  [{ seqno := 1, colname := some ("b") }, { seqno := 0, colname := some ("a") }]

/-- One row of `PRAGMA foreign_key_list`:
`id|seq|table|from|to|on_update|on_delete|match` (the fields the describer
reads; `to` is nullable under shorthand syntax). -/
structure FkRow where
  id : Int
  seq : Int
  table : String
  fromCol : String
  toCol : Option String
  on_update : String
  on_delete : String
deriving DecidableEq, Repr

/-- `IntermediateForeignKey`: the per-constraint grouping state, with the
column maps as association lists keyed by `seq`. -/
structure IntermediateForeignKey where
  columns : List (Int × String)
  referenced_table : String
  referenced_columns : List (Int × String)
  on_delete_action : ForeignKeyAction
  on_update_action : ForeignKeyAction
deriving DecidableEq, Repr

/-- The referential-action parser of `get_foreign_keys`; the catch-all arm is
a panic (`Unrecognized ... action`), modelled as `none`. -/
def parseFkAction (s : String) : Option ForeignKeyAction :=
  let ls := strToLower s
  if ls = ("no action") then some ForeignKeyAction.noAction
  else if ls = ("restrict") then some ForeignKeyAction.restrict
  else if ls = ("set null") then some ForeignKeyAction.setNull
  else if ls = ("set default") then some ForeignKeyAction.setDefault
  else if ls = ("cascade") then some ForeignKeyAction.cascade
  else none

/-- In-place update of the entry with the given id (`HashMap::get_mut`). -/
def updateFkEntry (id : Int) (f : IntermediateForeignKey → IntermediateForeignKey) :
    List (Int × IntermediateForeignKey) → List (Int × IntermediateForeignKey)
  | [] => []
  | (k, v) :: rest => if k = id then (k, f v) :: rest else (k, v) :: updateFkEntry id f rest

/-- The grouping loop of `get_foreign_keys`: one row per (constraint, column)
pair is folded into a map keyed by constraint id.  The model keeps entries in
first-insertion order; nothing downstream depends on this order because the
`values()` iteration order is passed separately (see
`c9_fk_sort_determinism`). `none` models the action-parsing panics. -/
def buildIntermediateFks (rows : List FkRow) :
    Option (List (Int × IntermediateForeignKey)) :=
  rows.foldlM (fun m row =>
    if (m.lookup row.id).isSome then
      some (updateFkEntry row.id (fun fk =>
        { fk with
          columns := insertAL row.seq row.fromCol fk.columns
          referenced_columns :=
            (match row.toCol with
              | some c => insertAL row.seq c fk.referenced_columns
              | none => fk.referenced_columns) }) m)
    else
      match parseFkAction row.on_delete, parseFkAction row.on_update with
      | some del, some upd =>
        some (m ++ [(row.id,
          { columns := [(row.seq, row.fromCol)]
            referenced_table := row.table
            referenced_columns :=
              (match row.toCol with
                | some c => [(row.seq, c)]
                | none => [])
            on_delete_action := del
            on_update_action := upd })])
      | _, _ => none) []

/-- The translation of one `IntermediateForeignKey` into a `ForeignKey`:
column keys sorted, values looked up (`intermediate_fk.columns[i]`, which
cannot miss, is `lookup.getD`); `constraint_name: None`. -/
def fkFromIntermediate (ifk : IntermediateForeignKey) : ForeignKey :=
  let column_keys := List.insertionSort (fun a b : Int => a ≤ b) (ifk.columns.map Prod.fst)
  let referenced_column_keys :=
    List.insertionSort (fun a b : Int => a ≤ b) (ifk.referenced_columns.map Prod.fst)
  { columns := column_keys.map (fun i => ((ifk.columns.lookup i).getD ("")))
    referenced_table := ifk.referenced_table
    referenced_columns :=
      referenced_column_keys.map (fun i => ((ifk.referenced_columns.lookup i).getD ("")))
    on_delete_action := ifk.on_delete_action
    on_update_action := ifk.on_update_action
    constraint_name := none }

/-- Strict lexicographic comparison of character lists: the order `Ord` gives
Rust strings (byte order, which on UTF-8 agrees with code-point order). -/
def charsLt : List Char → List Char → Bool
  | [], [] => false
  | [], _ :: _ => true
  | _ :: _, [] => false
  | a :: as, b :: bs => if a < b then true else if b < a then false else charsLt as bs

/-- Rust `String` strict order. -/
def strLtB (a b : String) : Bool := charsLt a.data b.data

/-- Rust `Vec<String>` (non-strict) lexicographic order: the comparison
`sort_unstable_by_key(|fk| fk.columns.clone())` sorts by. -/
def strListLe : List String → List String → Bool
  | [], _ => true
  | _ :: _, [] => false
  | a :: as, b :: bs => if strLtB a b then true else if strLtB b a then false else strListLe as bs

/-- `fks.sort_unstable_by_key(|fk| fk.columns.clone())`, modelled as a sort
by the lexicographic order on the referencing-column lists.  (`sort_unstable`
promises nothing about the relative order of equal keys, so any sorting
algorithm is a sound model; instability is accounted for by quantifying over
the input order.) -/
def sortFks (fks : List ForeignKey) : List ForeignKey :=
  List.insertionSort (fun a b : ForeignKey => strListLe a.columns b.columns = true) fks

/-- `get_foreign_keys`: group the rows, iterate the map's values in the
(unspecified) order `order`, translate, and sort by referencing columns. -/
def get_foreign_keys (rows : List FkRow)
    (order : List (Int × IntermediateForeignKey)) : Option (List ForeignKey) :=
  match buildIntermediateFks rows with
  | none => none
  | some _ => some (sortFks (order.map (fun p => fkFromIntermediate p.2)))

/-- Catalog rows of two single-column foreign keys on the *same* referencing
column `a`, pointing at different tables. -/
def c9TieRows : List FkRow :=
  [{ id := 0, seq := 0, table := ("t1"), fromCol := ("a"), toCol := some ("id"),
     on_update := ("NO ACTION"), on_delete := ("NO ACTION") },
   { id := 1, seq := 0, table := ("t2"), fromCol := ("a"), toCol := some ("id"),
     on_update := ("NO ACTION"), on_delete := ("NO ACTION") }]

/-- The grouped entry for constraint 0 of `c9TieRows`. -/
def c9TieI0 : IntermediateForeignKey where
  columns := [(0, ("a"))]
  referenced_table := ("t1")
  referenced_columns := [(0, ("id"))]
  on_delete_action := ForeignKeyAction.noAction
  on_update_action := ForeignKeyAction.noAction

/-- The grouped entry for constraint 1 of `c9TieRows`. -/
def c9TieI1 : IntermediateForeignKey where
  columns := [(0, ("a"))]
  referenced_table := ("t2")
  referenced_columns := [(0, ("id"))]
  on_delete_action := ForeignKeyAction.noAction
  on_update_action := ForeignKeyAction.noAction

/-- Catalog rows of two foreign keys on *distinct* referencing columns. -/
def c9DistinctRows : List FkRow :=
  [{ id := 0, seq := 0, table := ("t1"), fromCol := ("b"), toCol := some ("id"),
     on_update := ("NO ACTION"), on_delete := ("NO ACTION") },
   { id := 1, seq := 0, table := ("t2"), fromCol := ("a"), toCol := some ("id"),
     on_update := ("NO ACTION"), on_delete := ("NO ACTION") }]

/-- The grouped entry for constraint 0 of `c9DistinctRows`. -/
def c9DistI0 : IntermediateForeignKey where
  columns := [(0, ("b"))]
  referenced_table := ("t1")
  referenced_columns := [(0, ("id"))]
  on_delete_action := ForeignKeyAction.noAction
  on_update_action := ForeignKeyAction.noAction

/-- The grouped entry for constraint 1 of `c9DistinctRows`. -/
def c9DistI1 : IntermediateForeignKey where
  columns := [(0, ("a"))]
  referenced_table := ("t2")
  referenced_columns := [(0, ("id"))]
  on_delete_action := ForeignKeyAction.noAction
  on_update_action := ForeignKeyAction.noAction

/-- A step as the script renderer sees it: `step.description()` plus the
statements `render_raw_sql` produces for it. -/
structure RenderedStep where
  description : String
  statements : List String
deriving DecidableEq, Repr

/-- Split a character list at every newline; the final element is the segment
after the last newline (so the result is always nonempty). -/
def splitNl : List Char → List (List Char)
  | [] => [[]]
  | c :: rest =>
    match splitNl rest with
    | [] => [[c]]
    | h :: t => if c = ('\n') then [] :: h :: t else (c :: h) :: t

/-- Strip one trailing carriage return (`str::lines` does this to every
newline-terminated line). -/
def stripCrL (l : List Char) : List Char :=
  if l.getLast? = some ('\r') then l.dropLast else l

/-- `str::lines`: split at newlines, drop the final segment when it is empty
(i.e. when the text ends with a newline), strip `\r` from the segments that
were newline-terminated. -/
def rustLinesL (cs : List Char) : List (List Char) :=
  match (splitNl cs).getLast? with
  | some [] => (splitNl cs).dropLast.map stripCrL
  | _ => (splitNl cs).dropLast.map stripCrL ++ [(splitNl cs).getLastD []]

/-- The characters of the marker prefix `-- [Step: `. -/
def markerOpenL : List Char := ("-- [Step: ").data

/-- Per-line semantics of the anchored pattern `^-- \[Step: (.*)\]$` on a
newline-free line: it matches iff the line starts with the ten-character
prefix and its last character is `]` (the greedy `(.*)` then reaches exactly
to that final bracket), and the capture is everything in between. -/
def stepMarkerCapture (l : List Char) : Option (List Char) :=
  if markerOpenL.isPrefixOf l ∧ l.getLast? = some (']') then
    some ((l.drop 10).dropLast)
  else none

/-- Append one non-marker line (plus the newline the fold re-adds) to the
last group's statement text (`acc.last_mut().unwrap()`). -/
def pushLineL :
    List (Nat × List Char × List Char) → List Char → List (Nat × List Char × List Char)
  | [], _ => []
  | [(i, d, s)], line => [(i, d, s ++ line ++ [('\n')])]
  | x :: y :: rest, line => x :: pushLineL (y :: rest) line

/-- One step of the `apply_script` fold over the enumerated lines. -/
def stepF (acc : List (Nat × List Char × List Char)) (p : Nat × List Char) :
    List (Nat × List Char × List Char) :=
  match stepMarkerCapture p.2 with
  | some d => acc ++ [(p.1, d, [])]
  | none => pushLineL acc p.2

/-- The statement-group accumulator of `apply_script`, starting from the
dummy group `(0, "", "")`. -/
def splitStepFold (lines : List (List Char)) : List (Nat × List Char × List Char) :=
  (lines.enum).foldl stepF [(0, [], [])]

/-- The `(line index, step description, statement block)` groups that
`apply_script` computes from a script (its `raw_cmd` loop then executes the
third component of every group but the first, in order). -/
def apply_script_groups (script : String) : List (Nat × String × String) :=
  (splitStepFold (rustLinesL script.data)).map
    (fun g => (g.1, (⟨g.2.1⟩ : String), (⟨g.2.2⟩ : String)))

/-- The warnings comment block of `render_script`.  `has_warnings()`
(migration-connector crate, outside the snapshot) holds exactly when the
warning list is nonempty. -/
def renderWarningBlock (warnings unexecutable : List String) : String :=
  if ¬ warnings.isEmpty ∨ ¬ unexecutable.isEmpty then
    ("/*\n  Warnings:\n\n")
      ++ String.join (warnings.map (fun w => ("  - ") ++ w ++ ("\n")))
      ++ String.join (unexecutable.map (fun w => ("  - ") ++ w ++ ("\n")))
      ++ ("\n*/\n")
  else ("")

/-- The block `render_script` emits for one step: nothing for a step with no
statements, else the marker line followed by the semicolon-and-newline
terminated statements. -/
def renderStepBlock (step : RenderedStep) : String :=
  if step.statements.isEmpty then ("")
  else
    ("-- [Step: ") ++ step.description ++ ("]\n")
      ++ String.join (step.statements.map (fun st => st ++ (";\n")))

/-- `render_script`: the empty-migration sentinel (`is_empty()` holds exactly
when the step list is empty), else warnings block then step blocks. -/
def render_script (warnings unexecutable : List String) (steps : List RenderedStep) :
    String :=
  if steps.isEmpty then ("-- This is an empty migration.")
  else renderWarningBlock warnings unexecutable ++ String.join (steps.map renderStepBlock)

/-- The text the fold reconstructs from a run of lines: each line with the
newline the fold pushes after it. -/
def textL (lines : List (List Char)) : List Char :=
  (lines.map (fun l => l ++ [('\n')])).flatten

/-- The newline-terminated chunks of the warnings block. -/
def headerChunksL (warnings unexecutable : List String) : List (List Char) :=
  if ¬ warnings.isEmpty ∨ ¬ unexecutable.isEmpty then
    [("/*").data ++ [('\n')], ("  Warnings:").data ++ [('\n')], [('\n')]]
      ++ warnings.map (fun w => (("  - ").data ++ w.data) ++ [('\n')])
      ++ unexecutable.map (fun w => (("  - ").data ++ w.data) ++ [('\n')])
      ++ [[('\n')], ("*/").data ++ [('\n')]]
  else []

/-- The newline-terminated chunk of one rendered statement. -/
def stmtChunkL (st : String) : List Char := (st.data ++ [(';')]) ++ [('\n')]

/-- The newline-terminated chunks of one step block. -/
def stepChunksL (s : RenderedStep) : List (List Char) :=
  if s.statements.isEmpty then []
  else ((markerOpenL ++ (s.description.data ++ [(']')])) ++ [('\n')])
    :: s.statements.map stmtChunkL

/-- The lines a chunk contributes to `str::lines` of the whole script. -/
def chunkLinesL (c : List Char) : List (List Char) := ((splitNl c).dropLast).map stripCrL

/-- The lines one rendered statement contributes. -/
def stmtLinesL (st : String) : List (List Char) := (splitNl (st.data ++ [(';')])).map stripCrL

/-- The `(description, body lines)` block of one non-empty step. -/
def stepBlockOf (s : RenderedStep) : List Char × List (List Char) :=
  (s.description.data, (s.statements.map stmtLinesL).flatten)

/-- Concrete two-step migration (one step with two statements, one with none)
used to instantiate the round-trip theorem. -/
def c1Steps : List RenderedStep :=
  [⟨("CreateTable t"), [("CREATE TABLE t (id INT)"), ("INSERT INTO t VALUES (1)")]⟩,
   ⟨("Empty step"), []⟩]

/-- C8: for a raw catalog default that is a (single-)quoted SQL string, the
unquoting strips the surrounding quotes and replaces every doubled single
quote by a single quote; in particular the raw default `'it''s'` (outer
quotes included) introspects to the value `it's`. -/
theorem c8_string_default_unquote (inner : List Char) :
    unquote_sqlite_string_default ⟨squote :: (inner ++ [squote])⟩ = ⟨unescapeQuotes inner⟩ ∧
    unquote_sqlite_string_default ⟨[squote, 'i', 't', squote, squote, 's', squote]⟩ =
      ⟨['i', 't', squote, 's']⟩ := by
  constructor
  · show (⟨unescapeQuotes (stripQuotedL (squote :: (inner ++ [squote])))⟩ : String) = _
    have h : stripQuotedL (squote :: (inner ++ [squote])) = inner := by
      simp [stripQuotedL]
    rw [h]
  · decide

/-! ### The step applier: `apply_next_step` (sql_database_step_applier.rs, lines 113-136)

The connection shell's `raw_cmd` is modelled by an oracle
`exec : String → Option DatabaseError` (`none` = success), and the value of a
call to `apply_next_step` is the ordered trace of statements passed to
`raw_cmd` together with the returned `ConnectorResult<bool>`.  The rendering
of one step (`render_raw_sql`, which dispatches on the step variant to the
dialect flavour, whose implementations live in other crates) is abstracted as
a function `render : σ → List String` on an arbitrary step type `σ`. -/

/-- C4: applying a step at an index at or past the end of the step list
returns `false` and issues no statement; at an in-range index, if every
rendered statement succeeds, exactly the rendered statements are issued in
order and the call returns `true`. -/
theorem c4_apply_step_bounds {σ : Type} (render : σ → List String)
    (steps : List σ) (index : Nat) (exec : String → Option DatabaseError) :
    (steps.length ≤ index →
      apply_next_step render steps index exec = ([], Except.ok false)) ∧
    (∀ h : index < steps.length,
      (∀ s ∈ render steps[index], exec s = none) →
      apply_next_step render steps index exec =
        (render steps[index], Except.ok true)) := by
  constructor
  · intro hle
    unfold apply_next_step
    rw [dif_neg (Nat.not_lt.mpr hle)]
  · intro h hok
    have hall : ∀ l : List String, (∀ s ∈ l, exec s = none) →
        runStatements exec l = (l, none) := by
      intro l
      induction l with
      | nil => intro _; rfl
      | cons a t ih =>
        intro hl
        unfold runStatements
        rw [hl a (List.mem_cons_self a t), ih (fun s hs => hl s (List.mem_cons_of_mem a hs))]
    unfold apply_next_step
    rw [dif_pos h, hall _ hok]

/-- Closed witness for `c4_apply_step_bounds` at concrete inputs. -/
theorem c4_apply_step_bounds_witness :
    (apply_next_step (fun s : String => [s]) [("CREATE TABLE a (id int)")] 3
        (fun _ => none) = ([], Except.ok false)) ∧
    (apply_next_step (fun s : String => [s]) [("CREATE TABLE a (id int)")] 0
        (fun _ => none) = ([("CREATE TABLE a (id int)")], Except.ok true)) :=
  ⟨(c4_apply_step_bounds _ _ 3 _).1 (by decide),
   (c4_apply_step_bounds _ _ 0 _).2 (by decide) (by intro s _; rfl)⟩

/-- C5: if, at an in-range index, the rendered statements split as
`pre ++ sk :: post` where every statement of `pre` succeeds and `sk` fails
with error `e`, then exactly `pre ++ [sk]` is issued, in order, nothing of
`post` is issued, and the call propagates `e`. -/
theorem c5_apply_step_failure {σ : Type} (render : σ → List String)
    (steps : List σ) (index : Nat) (exec : String → Option DatabaseError)
    (h : index < steps.length) (pre post : List String) (sk : String)
    (e : DatabaseError)
    (hsplit : render steps[index] = pre ++ sk :: post)
    (hpre : ∀ s ∈ pre, exec s = none) (hfail : exec sk = some e) :
    apply_next_step render steps index exec = (pre ++ [sk], Except.error e) := by
  have key : ∀ pre, (∀ s ∈ pre, exec s = none) →
      runStatements exec (pre ++ sk :: post) = (pre ++ [sk], some e) := by
    intro pre
    induction pre with
    | nil =>
      intro _
      show runStatements exec (sk :: post) = ([sk], some e)
      unfold runStatements
      rw [hfail]
    | cons a t ih =>
      intro hl
      show runStatements exec (a :: (t ++ sk :: post)) = _
      unfold runStatements
      rw [hl a (List.mem_cons_self a t), ih (fun s hs => hl s (List.mem_cons_of_mem a hs))]
      rfl
  unfold apply_next_step
  rw [dif_pos h, hsplit, key pre hpre]

/-- Closed witness for `c5_apply_step_failure` at concrete inputs. -/
theorem c5_apply_step_failure_witness :
    apply_next_step (fun s : String => [("A"), s, ("C")]) [("B")] 0
      (fun s => if s = ("B") then some ⟨("boom"), none⟩ else none) =
    ([("A"), ("B")], Except.error ⟨("boom"), none⟩) :=
  c5_apply_step_failure _ _ 0 _ (by decide) [("A")] [("C")] ("B") ⟨("boom"), none⟩
    (by rfl) (by decide) (by rfl)

/-! ### Schema data model (sql-schema-describer) -/

theorem insertAL_of_not_mem (k : Int) (v : String) (l : List (Int × String))
    (h : k ∉ l.map Prod.fst) : insertAL k v l = l ++ [(k, v)] := by
  induction l with
  | nil => rfl
  | cons p rest ih =>
    obtain ⟨k2, v2⟩ := p
    simp only [List.map_cons, List.mem_cons, not_or] at h
    simp only [insertAL, if_neg h.1, List.cons_append, ih h.2]

theorem pkColsAL_foldl (rows : List TableInfoRow) :
    ∀ m : List (Int × String),
      ((m.map Prod.fst) ++ ((pkPairs rows).map Prod.fst)).Nodup →
      rows.foldl (fun m r => if 0 < r.pk then insertAL r.pk r.name m else m) m
        = m ++ pkPairs rows := by
  induction rows with
  | nil =>
    intro m _
    simp [pkPairs]
  | cons r rest ih =>
    intro m hnd
    by_cases hpk : 0 < r.pk
    · have hpp : pkPairs (r :: rest) = (r.pk, r.name) :: pkPairs rest := by
        simp [pkPairs, hpk]
      rw [hpp] at hnd
      rw [List.map_cons] at hnd
      have hknotin : r.pk ∉ m.map Prod.fst := by
        rw [List.nodup_append] at hnd
        intro hmem
        exact hnd.2.2 hmem (List.mem_cons_self _ _)
      have hstep : List.foldl
          (fun m r => if 0 < r.pk then insertAL r.pk r.name m else m) m (r :: rest)
          = List.foldl (fun m r => if 0 < r.pk then insertAL r.pk r.name m else m)
            (m ++ [(r.pk, r.name)]) rest := by
        rw [List.foldl_cons, if_pos hpk, insertAL_of_not_mem _ _ _ hknotin]
      rw [hstep, ih (m ++ [(r.pk, r.name)]) (by simpa using hnd), hpp, List.append_assoc]
      rfl
    · have hpp : pkPairs (r :: rest) = pkPairs rest := by
        simp [pkPairs, hpk]
      rw [hpp] at hnd
      rw [List.foldl_cons, if_neg hpk, ih m hnd, hpp]

/-- With pairwise-distinct key-sequence values, the `pk_cols` map contents are
exactly the `pk`-flagged `(pk, name)` pairs in row order. -/
theorem pkColsAL_eq_pkPairs (rows : List TableInfoRow)
    (h : ((pkPairs rows).map Prod.fst).Nodup) : pkColsAL rows = pkPairs rows := by
  have := pkColsAL_foldl rows [] (by simpa using h)
  simpa [pkColsAL] using this

theorem lookup_of_mem_nodup {l : List (Int × String)}
    (hnd : (l.map Prod.fst).Nodup) {k : Int} {v : String} (hm : (k, v) ∈ l) :
    l.lookup k = some v := by
  induction l with
  | nil => cases hm
  | cons p rest ih =>
    obtain ⟨k2, v2⟩ := p
    simp only [List.map_cons, List.nodup_cons] at hnd
    rcases List.mem_cons.mp hm with heq | hmem
    · cases heq
      simp [List.lookup]
    · have hne : k ≠ k2 := by
        rintro rfl
        exact hnd.1 (List.mem_map.mpr ⟨(k, v), hmem, rfl⟩)
      simp only [List.lookup_cons, beq_false_of_ne hne]
      exact ih hnd.2 hmem

/-- Unfolding of the primary-key component of `get_columns`. -/
theorem get_columns_snd (p1 p2 p3 : String → Option PrismaValue)
    (p4 : String → Option Bool) (rows : List TableInfoRow) :
    (get_columns p1 p2 p3 p4 rows).2 =
      (if (pkColsAL rows).isEmpty then none
       else some
        { columns :=
            (List.insertionSort (fun a b : Int => a ≤ b) ((pkColsAL rows).map Prod.fst)).map
              (fun i => (((pkColsAL rows).lookup i).getD ("")))
          sequence := none
          constraint_name := none }) := by
  unfold get_columns
  by_cases h : (pkColsAL rows).isEmpty
  · simp [h]
  · simp only [h, if_false]
    by_cases h1 : (pkColsAL rows).length = 1 <;> simp [h1]

/-- C7: the primary key recovered by `get_columns` lists the `pk`-flagged
columns ordered by their key sequence number (the sorted key list of the
`pk_cols` map), and is invariant under permuting the catalog rows, i.e.
independent of the columns' declaration order. -/
theorem c7_composite_pk_ordered_by_seq (p1 p2 p3 : String → Option PrismaValue)
    (p4 : String → Option Bool) (rows rows' : List TableInfoRow)
    (hnd : ((pkPairs rows).map Prod.fst).Nodup) (hperm : rows'.Perm rows) :
    (get_columns p1 p2 p3 p4 rows').2 = (get_columns p1 p2 p3 p4 rows).2 ∧
    (get_columns p1 p2 p3 p4 rows).2 =
      (if pkPairs rows = [] then none
       else some
        { columns :=
            (List.insertionSort (fun a b : Int => a ≤ b) ((pkPairs rows).map Prod.fst)).map
              (fun i => (((pkPairs rows).lookup i).getD ("")))
          sequence := none
          constraint_name := none }) := by
  have hpp : (pkPairs rows').Perm (pkPairs rows) := hperm.filterMap _
  have hk : ((pkPairs rows').map Prod.fst).Perm ((pkPairs rows).map Prod.fst) := hpp.map _
  have hnd' : ((pkPairs rows').map Prod.fst).Nodup := hk.nodup_iff.mpr hnd
  have L1 : pkColsAL rows = pkPairs rows := pkColsAL_eq_pkPairs rows hnd
  have L1' : pkColsAL rows' = pkPairs rows' := pkColsAL_eq_pkPairs rows' hnd'
  have hs1 : List.Sorted (fun a b : Int => a ≤ b)
      (List.insertionSort (fun a b : Int => a ≤ b) ((pkPairs rows').map Prod.fst)) :=
    List.sorted_insertionSort _ _
  have hs2 : List.Sorted (fun a b : Int => a ≤ b)
      (List.insertionSort (fun a b : Int => a ≤ b) ((pkPairs rows).map Prod.fst)) :=
    List.sorted_insertionSort _ _
  have hsorted : List.insertionSort (fun a b : Int => a ≤ b) ((pkPairs rows').map Prod.fst)
      = List.insertionSort (fun a b : Int => a ≤ b) ((pkPairs rows).map Prod.fst) :=
    List.eq_of_perm_of_sorted
      ((List.perm_insertionSort _ _).trans (hk.trans (List.perm_insertionSort _ _).symm))
      hs1 hs2
  have hlookup :
      ∀ i ∈ List.insertionSort (fun a b : Int => a ≤ b) ((pkPairs rows).map Prod.fst),
        (pkPairs rows').lookup i = (pkPairs rows).lookup i := by
    intro i hi
    have hi2 : i ∈ (pkPairs rows).map Prod.fst := (List.mem_insertionSort _).mp hi
    obtain ⟨⟨k, v⟩, hmem, hfst⟩ := List.mem_map.mp hi2
    cases hfst
    rw [lookup_of_mem_nodup hnd hmem, lookup_of_mem_nodup hnd' (hpp.mem_iff.mpr hmem)]
  constructor
  · rw [get_columns_snd, get_columns_snd, L1, L1']
    by_cases hempty : pkPairs rows = []
    · have hempty' : pkPairs rows' = [] := by
        rw [hempty] at hpp
        exact hpp.eq_nil
      simp [hempty, hempty']
    · have hempty' : pkPairs rows' ≠ [] := by
        intro h
        rw [h] at hpp
        exact hempty hpp.symm.eq_nil
      rw [if_neg (by simpa [List.isEmpty_iff] using hempty'),
        if_neg (by simpa [List.isEmpty_iff] using hempty)]
      rw [hsorted]
      have hmapeq :
          (List.insertionSort (fun a b : Int => a ≤ b) ((pkPairs rows).map Prod.fst)).map
              (fun i => (((pkPairs rows').lookup i).getD ("")))
            = (List.insertionSort (fun a b : Int => a ≤ b) ((pkPairs rows).map Prod.fst)).map
              (fun i => (((pkPairs rows).lookup i).getD (""))) :=
        List.map_congr_left (fun i hi => by rw [hlookup i hi])
      rw [hmapeq]
  · rw [get_columns_snd, L1]
    by_cases hempty : pkPairs rows = []
    · simp [hempty]
    · rw [if_neg (by simpa [List.isEmpty_iff] using hempty), if_neg hempty]

/-- C6: a single-column primary key on a column whose raw type is `INTEGER`
(case-insensitively) makes `get_columns` mark that column auto-increment and
report a primary key listing exactly that column; with a multi-column
`pk_cols` map, no column is marked auto-increment. -/
theorem c6_rowid_autoincrement (p1 p2 p3 : String → Option PrismaValue)
    (p4 : String → Option Bool) (rows : List TableInfoRow) :
    (∀ k nm, pkPairs rows = [(k, nm)] →
      (∀ r ∈ rows, r.name = nm → strToLower r.tpe = ("integer")) →
      ((get_columns p1 p2 p3 p4 rows).2 =
          some { columns := [nm], sequence := none, constraint_name := none } ∧
        (∀ c ∈ (get_columns p1 p2 p3 p4 rows).1, c.name = nm → c.auto_increment = true) ∧
        ∃ c ∈ (get_columns p1 p2 p3 p4 rows).1, c.name = nm)) ∧
    (2 ≤ (pkColsAL rows).length →
      ∀ c ∈ (get_columns p1 p2 p3 p4 rows).1, c.auto_increment = false) := by
  constructor
  · intro k nm hpk hint
    have hAL : pkColsAL rows = [(k, nm)] := by
      rw [pkColsAL_eq_pkPairs rows (by rw [hpk]; simp), hpk]
    have hcols :
        (get_columns p1 p2 p3 p4 rows).1 =
          (rows.map (mkColumn p1 p2 p3 p4)).map (fun c =>
            if c.name = nm ∧ (strToLower c.tpe.full_data_type) = ("integer") then
              { c with auto_increment := true }
            else c) ∧
        (get_columns p1 p2 p3 p4 rows).2 =
          some { columns := [nm], sequence := none, constraint_name := none } := by
      unfold get_columns
      rw [hAL]
      constructor <;> simp [List.lookup_cons]
    refine ⟨hcols.2, ?_, ?_⟩
    · intro c hc hcn
      rw [hcols.1] at hc
      obtain ⟨c0, hc0, hc0eq⟩ := List.mem_map.mp hc
      obtain ⟨r, hr, hreq⟩ := List.mem_map.mp hc0
      by_cases hcond : c0.name = nm ∧ (strToLower c0.tpe.full_data_type) = ("integer")
      · rw [if_pos hcond] at hc0eq
        rw [← hc0eq]
      · rw [if_neg hcond] at hc0eq
        exfalso
        apply hcond
        have hname : c0.name = nm := hc0eq ▸ hcn
        refine ⟨hname, ?_⟩
        have hrname : r.name = nm := by
          have : c0.name = r.name := by rw [← hreq]; rfl
          rw [← this, hname]
        have hfull : c0.tpe.full_data_type = r.tpe := by rw [← hreq]; rfl
        rw [hfull]
        exact hint r hr hrname
    · have hmem : (k, nm) ∈ pkPairs rows := by rw [hpk]; exact List.mem_singleton.mpr rfl
      obtain ⟨r, hr, hfr⟩ := List.mem_filterMap.mp hmem
      have hrname : r.name = nm := by
        by_cases h0 : 0 < r.pk
        · rw [if_pos h0] at hfr
          exact congrArg Prod.snd (Option.some.inj hfr)
        · rw [if_neg h0] at hfr
          cases hfr
      rw [hcols.1]
      refine ⟨(fun c =>
        if c.name = nm ∧ (strToLower c.tpe.full_data_type) = ("integer") then
          { c with auto_increment := true }
        else c) (mkColumn p1 p2 p3 p4 r),
        List.mem_map_of_mem _ (List.mem_map_of_mem _ hr), ?_⟩
      dsimp only
      have hn0 : (mkColumn p1 p2 p3 p4 r).name = r.name := rfl
      by_cases hcond : (mkColumn p1 p2 p3 p4 r).name = nm ∧
          (strToLower (mkColumn p1 p2 p3 p4 r).tpe.full_data_type) = ("integer")
      · rw [if_pos hcond]
        rw [show ({ mkColumn p1 p2 p3 p4 r with auto_increment := true } : Column).name
            = (mkColumn p1 p2 p3 p4 r).name from rfl, hn0, hrname]
      · rw [if_neg hcond, hn0, hrname]
  · intro hlen c hc
    have hne : (pkColsAL rows).isEmpty = false := by
      cases h : pkColsAL rows with
      | nil => rw [h] at hlen; simp at hlen
      | cons a t => simp
    have h1 : ¬ (pkColsAL rows).length = 1 := by omega
    have hcols : (get_columns p1 p2 p3 p4 rows).1 = rows.map (mkColumn p1 p2 p3 p4) := by
      unfold get_columns
      simp [hne, h1]
    rw [hcols] at hc
    obtain ⟨r, _, hreq⟩ := List.mem_map.mp hc
    rw [← hreq]
    rfl

/-- Closed witness for `c7_composite_pk_ordered_by_seq` at concrete inputs:
the two declaration orders give the same primary key, listed in key-sequence
order `[a, b]`. -/
theorem c7_composite_pk_ordered_by_seq_witness :
    ((pkPairs c7RowsA).map Prod.fst).Nodup ∧
    (get_columns (fun _ => none) (fun _ => none) (fun _ => none) (fun _ => none) c7RowsB).2
      = (get_columns (fun _ => none) (fun _ => none) (fun _ => none) (fun _ => none) c7RowsA).2 ∧
    (get_columns (fun _ => none) (fun _ => none) (fun _ => none) (fun _ => none) c7RowsA).2
      = some { columns := [("a"), ("b")], sequence := none, constraint_name := none } :=
  ⟨by decide,
   (c7_composite_pk_ordered_by_seq _ _ _ _ c7RowsA c7RowsB (by decide) (by decide)).1,
   by decide⟩

/-- Closed witness for `c6_rowid_autoincrement` at concrete inputs. -/
theorem c6_rowid_autoincrement_witness :
    ((get_columns (fun _ => none) (fun _ => none) (fun _ => none) (fun _ => none) c6RowsA).2
        = some { columns := [("id")], sequence := none, constraint_name := none } ∧
      (∀ c ∈ (get_columns (fun _ => none) (fun _ => none) (fun _ => none) (fun _ => none)
          c6RowsA).1, c.name = ("id") → c.auto_increment = true) ∧
      ∃ c ∈ (get_columns (fun _ => none) (fun _ => none) (fun _ => none) (fun _ => none)
          c6RowsA).1, c.name = ("id")) ∧
    (∀ c ∈ (get_columns (fun _ => none) (fun _ => none) (fun _ => none) (fun _ => none)
        c6RowsB).1, c.auto_increment = false) :=
  ⟨(c6_rowid_autoincrement _ _ _ _ c6RowsA).1 1 ("id") (by decide) (by decide),
   (c6_rowid_autoincrement _ _ _ _ c6RowsB).2 (by decide)⟩

/-! ### Tables, foreign keys, indexes (sql-schema-describer data model) -/

theorem tableTargets_eq_some_iff (tables : List Table) (ti : Nat) :
    ∀ (l : List (Nat × ForeignKey)) (us : List (Nat × Nat × List String)),
      tableTargets tables ti l = some us ↔
        ((∀ p ∈ l, p.2.referenced_columns.isEmpty = true → (fkTargetCols tables p.2).isSome) ∧
          us = (l.filter (fun p => p.2.referenced_columns.isEmpty)).map
            (fun p => (ti, p.1, ((fkTargetCols tables p.2).getD [])))) := by
  intro l
  induction l with
  | nil =>
    intro us
    simp [tableTargets]
  | cons p rest ih =>
    obtain ⟨fi, fk⟩ := p
    intro us
    by_cases hfk : fk.referenced_columns.isEmpty
    · simp only [tableTargets, if_pos hfk]
      cases hc : fkTargetCols tables fk with
      | none =>
        simp only [List.filter_cons, hfk]
        constructor
        · intro h
          cases h
        · rintro ⟨hall, -⟩
          have := hall (fi, fk) (List.mem_cons_self _ _) hfk
          rw [hc] at this
          cases this
      | some cols =>
        cases ht : tableTargets tables ti rest with
        | none =>
          simp only [List.filter_cons, hfk]
          constructor
          · intro h
            cases h
          · rintro ⟨hall, -⟩
            have hrest : tableTargets tables ti rest = some
                ((rest.filter (fun p => p.2.referenced_columns.isEmpty)).map
                  (fun p => (ti, p.1, ((fkTargetCols tables p.2).getD [])))) :=
              (ih _).mpr ⟨fun q hq hqe => hall q (List.mem_cons_of_mem _ hq) hqe, rfl⟩
            rw [ht] at hrest
            cases hrest
        | some us2 =>
          have hrest := (ih us2).mp ht
          simp only [List.filter_cons, hfk, if_pos]
          constructor
          · intro h
            have hus := Option.some.inj h
            refine ⟨?_, ?_⟩
            · intro q hq hqe
              rcases List.mem_cons.mp hq with rfl | hq2
              · rw [hc]; rfl
              · exact hrest.1 q hq2 hqe
            · rw [← hus]
              simp only [List.map_cons]
              rw [hc, hrest.2]
              rfl
          · rintro ⟨-, heq⟩
            congr 1
            rw [heq]
            simp only [List.map_cons]
            rw [hc, hrest.2]
            rfl
    · simp only [tableTargets, if_neg hfk]
      rw [ih us]
      simp only [List.filter_cons]
      constructor
      · rintro ⟨hall, heq⟩
        refine ⟨?_, ?_⟩
        · intro q hq hqe
          rcases List.mem_cons.mp hq with rfl | hq2
          · exact absurd hqe (by simpa using hfk)
          · exact hall q hq2 hqe
        · rw [heq]
          simp [hfk]
      · rintro ⟨hall, heq⟩
        refine ⟨fun q hq hqe => hall q (List.mem_cons_of_mem _ hq) hqe, ?_⟩
        rw [heq]
        simp [hfk]

theorem allTargets_eq_some_iff (tables : List Table) :
    ∀ (L : List (Nat × Table)) (vs : List (Nat × Nat × List String)),
      allTargets tables L = some vs ↔
        ((∀ q ∈ L, (tableTargets tables q.1 q.2.foreign_keys.enum).isSome) ∧
          vs = (L.map (fun q =>
            ((tableTargets tables q.1 q.2.foreign_keys.enum).getD []))).flatten) := by
  intro L
  induction L with
  | nil =>
    intro vs
    simp [allTargets]
  | cons q rest ih =>
    obtain ⟨ti, t⟩ := q
    intro vs
    simp only [allTargets]
    cases hT : tableTargets tables ti t.foreign_keys.enum with
    | none =>
      constructor
      · intro h
        cases h
      · rintro ⟨hall, -⟩
        have := hall (ti, t) (List.mem_cons_self _ _)
        rw [hT] at this
        cases this
    | some us =>
      cases hR : allTargets tables rest with
      | none =>
        constructor
        · intro h
          cases h
        · rintro ⟨hall, -⟩
          have hrest : (∀ q ∈ rest, (tableTargets tables q.1 q.2.foreign_keys.enum).isSome) :=
            fun q hq => hall q (List.mem_cons_of_mem _ hq)
          have : allTargets tables rest = some ((rest.map (fun q =>
              ((tableTargets tables q.1 q.2.foreign_keys.enum).getD []))).flatten) :=
            (ih _).mpr ⟨hrest, rfl⟩
          rw [hR] at this
          cases this
      | some ws =>
        have hrest := (ih ws).mp hR
        constructor
        · intro h
          have hvs := Option.some.inj h
          refine ⟨?_, ?_⟩
          · intro q hq
            rcases List.mem_cons.mp hq with rfl | hq2
            · rw [hT]; rfl
            · exact hrest.1 q hq2
          · rw [← hvs]
            simp only [List.map_cons, List.flatten_cons]
            rw [hT, hrest.2]
            rfl
        · rintro ⟨-, heq⟩
          rw [heq]
          simp only [List.map_cons, List.flatten_cons]
          rw [hT, hrest.2]
          rfl

theorem getElem?_applyFkUpdate (ts : List Table) (u : Nat × Nat × List String) (ti : Nat) :
    (applyFkUpdate ts u)[ti]? =
      (fun t =>
        if u.1 = ti then
          { t with foreign_keys :=
              (List.modify (fun fk => { fk with referenced_columns := u.2.2 })
                u.2.1 t.foreign_keys) }
        else t) <$> ts[ti]? := by
  unfold applyFkUpdate
  exact List.getElem?_modify _ _ _ _

theorem length_foldl_applyFkUpdate (targets : List (Nat × Nat × List String)) :
    ∀ ts : List Table, (targets.foldl applyFkUpdate ts).length = ts.length := by
  induction targets with
  | nil => intro ts; rfl
  | cons u rest ih =>
    intro ts
    rw [List.foldl_cons, ih]
    unfold applyFkUpdate
    exact List.length_modify _ _ _

theorem tableSkel_foldl_applyFkUpdate (targets : List (Nat × Nat × List String)) :
    ∀ (ts : List Table) (ti : Nat),
      ((targets.foldl applyFkUpdate ts)[ti]?).map tableSkel = (ts[ti]?).map tableSkel := by
  induction targets with
  | nil => intro ts ti; rfl
  | cons u rest ih =>
    intro ts ti
    rw [List.foldl_cons, ih, getElem?_applyFkUpdate]
    cases h : ts[ti]? with
    | none => rfl
    | some t =>
      by_cases hti : u.1 = ti
      · simp [hti, tableSkel, List.length_modify]
      · simp [hti]

theorem fkAt_applyFkUpdate (ts : List Table) (u : Nat × Nat × List String) (ti fi : Nat) :
    fkAt (applyFkUpdate ts u) ti fi =
      (if u.1 = ti ∧ u.2.1 = fi then
        (fkAt ts ti fi).map (fun fk => { fk with referenced_columns := u.2.2 })
      else fkAt ts ti fi) := by
  unfold fkAt
  rw [getElem?_applyFkUpdate]
  cases h : ts[ti]? with
  | none =>
    by_cases hcond : u.1 = ti ∧ u.2.1 = fi <;> simp [hcond]
  | some t =>
    by_cases hti : u.1 = ti
    · simp only [hti, if_true, Option.map_some]
      show (List.modify (fun fk => { fk with referenced_columns := u.2.2 })
          u.2.1 t.foreign_keys)[fi]? = _
      rw [List.getElem?_modify]
      by_cases hfi : u.2.1 = fi
      · simp [hti, hfi]
      · simp [hti, hfi]
    · have hcond : ¬ (u.1 = ti ∧ u.2.1 = fi) := fun hh => hti hh.1
      simp [hti, hcond]

theorem fkAt_foldl_no_touch (targets : List (Nat × Nat × List String)) :
    ∀ (ts : List Table) (ti fi : Nat),
      (∀ u ∈ targets, ¬(u.1 = ti ∧ u.2.1 = fi)) →
      fkAt (targets.foldl applyFkUpdate ts) ti fi = fkAt ts ti fi := by
  induction targets with
  | nil => intro ts ti fi _; rfl
  | cons u rest ih =>
    intro ts ti fi h
    rw [List.foldl_cons, ih _ _ _ (fun v hv => h v (List.mem_cons_of_mem _ hv)),
      fkAt_applyFkUpdate, if_neg (h u (List.mem_cons_self _ _))]

theorem fkAt_foldl_single (us1 us2 : List (Nat × Nat × List String))
    (u : Nat × Nat × List String) (ts : List Table) (ti fi : Nat)
    (h1 : ∀ v ∈ us1, ¬(v.1 = ti ∧ v.2.1 = fi))
    (h2 : ∀ v ∈ us2, ¬(v.1 = ti ∧ v.2.1 = fi))
    (hu : u.1 = ti ∧ u.2.1 = fi) :
    fkAt ((us1 ++ u :: us2).foldl applyFkUpdate ts) ti fi =
      (fkAt ts ti fi).map (fun fk => { fk with referenced_columns := u.2.2 }) := by
  rw [List.foldl_append, List.foldl_cons, fkAt_foldl_no_touch us2 _ _ _ h2,
    fkAt_applyFkUpdate, if_pos hu, fkAt_foldl_no_touch us1 _ _ _ h1]

theorem tableTargets_isSome_iff (tables : List Table) (ti : Nat)
    (l : List (Nat × ForeignKey)) :
    (tableTargets tables ti l).isSome ↔
      ∀ p ∈ l, p.2.referenced_columns.isEmpty = true → (fkTargetCols tables p.2).isSome := by
  constructor
  · intro h
    obtain ⟨us, hus⟩ := Option.isSome_iff_exists.mp h
    exact ((tableTargets_eq_some_iff tables ti l us).mp hus).1
  · intro h
    rw [(tableTargets_eq_some_iff tables ti l _).mpr ⟨h, rfl⟩]
    rfl

theorem shorthandTargets_char (tables : List Table)
    (targets : List (Nat × Nat × List String)) :
    shorthandTargets tables = some targets ↔
      ((∀ q ∈ tables.enum, ∀ p ∈ q.2.foreign_keys.enum,
          p.2.referenced_columns.isEmpty = true → (fkTargetCols tables p.2).isSome) ∧
        targets = (tables.enum.map (targetGroup tables)).flatten) := by
  unfold shorthandTargets
  rw [allTargets_eq_some_iff]
  constructor
  · rintro ⟨hall, heq⟩
    refine ⟨?_, ?_⟩
    · intro q hq p hp hpe
      exact ((tableTargets_isSome_iff tables q.1 q.2.foreign_keys.enum).mp (hall q hq))
        p hp hpe
    · rw [heq]
      congr 1
      apply List.map_congr_left
      intro q hq
      rw [(tableTargets_eq_some_iff tables q.1 q.2.foreign_keys.enum _).mpr
        ⟨(tableTargets_isSome_iff tables q.1 q.2.foreign_keys.enum).mp (hall q hq), rfl⟩]
      rfl
  · rintro ⟨hall, heq⟩
    refine ⟨?_, ?_⟩
    · intro q hq
      exact (tableTargets_isSome_iff tables q.1 q.2.foreign_keys.enum).mpr (hall q hq)
    · rw [heq]
      congr 1
      apply List.map_congr_left
      intro q hq
      rw [(tableTargets_eq_some_iff tables q.1 q.2.foreign_keys.enum _).mpr
        ⟨hall q hq, rfl⟩]
      rfl

theorem allTargets_isSome_iff (tables : List Table) (L : List (Nat × Table)) :
    (allTargets tables L).isSome ↔
      ∀ q ∈ L, ∀ p ∈ q.2.foreign_keys.enum,
        p.2.referenced_columns.isEmpty = true → (fkTargetCols tables p.2).isSome := by
  constructor
  · intro h
    obtain ⟨vs, hvs⟩ := Option.isSome_iff_exists.mp h
    intro q hq
    exact (tableTargets_isSome_iff tables q.1 q.2.foreign_keys.enum).mp
      (((allTargets_eq_some_iff tables L vs).mp hvs).1 q hq)
  · intro h
    rw [(allTargets_eq_some_iff tables L _).mpr
      ⟨fun q hq => (tableTargets_isSome_iff tables q.1 q.2.foreign_keys.enum).mpr (h q hq),
        rfl⟩]
    rfl

theorem targetGroup_keys (tables : List Table) (q : Nat × Table) :
    (targetGroup tables q).map targetKey =
      ((q.2.foreign_keys.enum.filter (fun p => p.2.referenced_columns.isEmpty)).map
        (fun p => (q.1, p.1))) := by
  unfold targetGroup
  rw [List.map_map]
  rfl

theorem mem_targetGroup_key (tables : List Table) (q : Nat × Table)
    (u : Nat × Nat × List String) (hu : u ∈ targetGroup tables q) : u.1 = q.1 := by
  unfold targetGroup at hu
  obtain ⟨p, _, hpe⟩ := List.mem_map.mp hu
  rw [← hpe]

theorem shorthandTargets_keys_nodup (tables : List Table)
    (targets : List (Nat × Nat × List String))
    (h : shorthandTargets tables = some targets) :
    (targets.map targetKey).Nodup := by
  have hchar := (shorthandTargets_char tables targets).mp h
  rw [hchar.2, List.map_flatten, List.map_map]
  rw [List.nodup_flatten]
  constructor
  · intro ks hks
    obtain ⟨q, hq, hkeq⟩ := List.mem_map.mp hks
    rw [← hkeq]
    show ((targetGroup tables q).map targetKey).Nodup
    rw [targetGroup_keys]
    have hsub : ((q.2.foreign_keys.enum.filter
        (fun p => p.2.referenced_columns.isEmpty)).map Prod.fst).Nodup :=
      ((List.nodup_enum_map_fst q.2.foreign_keys).sublist
        (List.Sublist.map Prod.fst (List.filter_sublist _)))
    have : ((q.2.foreign_keys.enum.filter (fun p => p.2.referenced_columns.isEmpty)).map
        (fun p => (q.1, p.1))) =
        ((q.2.foreign_keys.enum.filter (fun p => p.2.referenced_columns.isEmpty)).map
          Prod.fst).map (fun i => (q.1, i)) := by
      rw [List.map_map]
      rfl
    rw [this]
    exact hsub.map (fun a b hab => (Prod.mk.injEq _ _ _ _).mp hab |>.2)
  · have hfst : List.Pairwise (fun q1 q2 : Nat × Table => q1.1 ≠ q2.1) tables.enum := by
      have := List.nodup_enum_map_fst tables
      rwa [List.Nodup, List.pairwise_map] at this
    rw [List.pairwise_map]
    apply List.Pairwise.imp_of_mem ?_ hfst
    intro q1 q2 _ _ hne
    intro x hx1 hx2
    obtain ⟨u1, hu1, he1⟩ := List.mem_map.mp hx1
    obtain ⟨u2, hu2, he2⟩ := List.mem_map.mp hx2
    have k1 : x.1 = q1.1 := by rw [← he1]; exact mem_targetGroup_key tables q1 u1 hu1
    have k2 : x.1 = q2.1 := by rw [← he2]; exact mem_targetGroup_key tables q2 u2 hu2
    exact hne (k1 ▸ k2)

theorem fkTargetCols_isSome_iff (ts : List Table) (hnd : (ts.map Table.name).Nodup)
    (fk : ForeignKey) :
    (fkTargetCols ts fk).isSome ↔
      ∃ rt ∈ ts, rt.name = fk.referenced_table ∧ rt.primary_key.isSome := by
  unfold fkTargetCols
  cases hf : ts.find? (fun t => t.name = fk.referenced_table) with
  | none =>
    constructor
    · intro h
      simp at h
    · rintro ⟨rt, hrt, hname, -⟩
      have hsome : (ts.find? (fun t => t.name = fk.referenced_table)).isSome :=
        List.find?_isSome.mpr ⟨rt, hrt, by simp [hname]⟩
      rw [hf] at hsome
      simp at hsome
  | some rt =>
    have hmem := List.mem_of_find?_eq_some hf
    have hname : rt.name = fk.referenced_table := by
      have := List.find?_some hf
      simpa using this
    cases hpk : rt.primary_key with
    | none =>
      constructor
      · intro h
        simp [hpk] at h
      · rintro ⟨rt2, hrt2, hname2, hpk2⟩
        have heq : rt2 = rt :=
          List.inj_on_of_nodup_map hnd hrt2 hmem (by rw [hname2, hname])
        rw [heq, hpk] at hpk2
        simp at hpk2
    | some pk =>
      constructor
      · intro _
        exact ⟨rt, hmem, hname, by simp [hpk]⟩
      · intro _
        simp [hpk]

theorem purge_map_name (tables : List Table) :
    (purge_dangling_foreign_keys tables).map Table.name = tables.map Table.name := by
  unfold purge_dangling_foreign_keys
  rw [List.map_map]
  rfl

theorem resolveShorthandFks_isSome_iff (ts : List Table)
    (hnd : (ts.map Table.name).Nodup) :
    (resolveShorthandFks ts).isSome ↔
      ∀ t ∈ ts, ∀ fk ∈ t.foreign_keys, fk.referenced_columns = [] →
        ∃ rt ∈ ts, rt.name = fk.referenced_table ∧ rt.primary_key.isSome := by
  unfold resolveShorthandFks
  rw [Option.isSome_map']
  unfold shorthandTargets
  rw [allTargets_isSome_iff]
  constructor
  · intro h t ht fk hfk hempty
    obtain ⟨ti, hti⟩ := List.mem_iff_getElem?.mp ht
    obtain ⟨fi, hfi⟩ := List.mem_iff_getElem?.mp hfk
    have hq : (ti, t) ∈ ts.enum := List.mk_mem_enum_iff_getElem?.mpr (by rw [hti])
    have hp : (fi, fk) ∈ t.foreign_keys.enum :=
      List.mk_mem_enum_iff_getElem?.mpr (by rw [hfi])
    have := h (ti, t) hq (fi, fk) hp (by simp [hempty])
    exact (fkTargetCols_isSome_iff ts hnd fk).mp this
  · intro h q hq p hp hpe
    have ht : q.2 ∈ ts := by
      obtain ⟨ti, t⟩ := q
      exact List.getElem?_mem (by simpa using List.mem_enum_iff_getElem?.mp hq)
    have hfk : p.2 ∈ q.2.foreign_keys := by
      obtain ⟨fi, fk⟩ := p
      exact List.getElem?_mem (by simpa using List.mem_enum_iff_getElem?.mp hp)
    exact (fkTargetCols_isSome_iff ts hnd p.2).mpr
      (h q.2 ht p.2 hfk (by simpa [List.isEmpty_iff] using hpe))

/-- C10: the shorthand-foreign-key resolution pass of `describe`
unconditionally unwraps the referenced-table lookup and that table's primary
key; run after the dangling-foreign-key purge, it is panic-free precisely
when every table referenced by a foreign key with an empty referenced-column
list exists in the snapshot and has a primary key. -/
theorem c10_shorthand_resolution_precondition (tables : List Table)
    (hnd : (tables.map Table.name).Nodup) :
    (resolveShorthandFks (purge_dangling_foreign_keys tables)).isSome ↔
      ∀ t ∈ purge_dangling_foreign_keys tables, ∀ fk ∈ t.foreign_keys,
        fk.referenced_columns = [] →
        ∃ rt ∈ purge_dangling_foreign_keys tables,
          rt.name = fk.referenced_table ∧ rt.primary_key.isSome :=
  resolveShorthandFks_isSome_iff (purge_dangling_foreign_keys tables)
    (by rw [purge_map_name]; exact hnd)

/-- C3: the shorthand-foreign-key resolution pass of `describe`, when it
completes, sets the referenced columns of every foreign key that had an empty
referenced-column list to exactly the primary-key column list of the
referenced table (the first table of the snapshot carrying that name), leaves
every other field of that foreign key unchanged, leaves foreign keys with
explicit referenced columns entirely unchanged, and changes nothing else
about any table. -/
theorem c3_shorthand_fk_resolution (tables tables' : List Table)
    (hres : resolveShorthandFks tables = some tables') :
    tables'.length = tables.length ∧
    ∀ (ti : Nat) (t : Table), tables[ti]? = some t →
      ∃ t' : Table, tables'[ti]? = some t' ∧
        t'.name = t.name ∧ t'.columns = t.columns ∧ t'.indices = t.indices ∧
        t'.primary_key = t.primary_key ∧
        t'.foreign_keys.length = t.foreign_keys.length ∧
        ∀ (fi : Nat) (fk : ForeignKey), t.foreign_keys[fi]? = some fk →
          (fk.referenced_columns = [] →
            ∃ rt pk, tables.find? (fun tb => tb.name = fk.referenced_table) = some rt ∧
              rt.primary_key = some pk ∧
              t'.foreign_keys[fi]? = some { fk with referenced_columns := pk.columns }) ∧
          (fk.referenced_columns ≠ [] → t'.foreign_keys[fi]? = some fk) := by
  obtain ⟨targets, htargets, hfold⟩ := Option.map_eq_some'.mp hres
  subst hfold
  have hchar := (shorthandTargets_char tables targets).mp htargets
  have hkeys := shorthandTargets_keys_nodup tables targets htargets
  constructor
  · exact length_foldl_applyFkUpdate targets tables
  · intro ti t hti
    have hskel := tableSkel_foldl_applyFkUpdate targets tables ti
    rw [hti] at hskel
    obtain ⟨t', ht', hskel'⟩ := Option.map_eq_some'.mp hskel
    have hqmem : (ti, t) ∈ tables.enum := List.mk_mem_enum_iff_getElem?.mpr (by rw [hti])
    refine ⟨t', ht', congrArg (fun x => x.1) hskel', congrArg (fun x => x.2.1) hskel',
      congrArg (fun x => x.2.2.1) hskel', congrArg (fun x => x.2.2.2.1) hskel',
      congrArg (fun x => x.2.2.2.2) hskel', ?_⟩
    intro fi fk hfi
    have hpmem : (fi, fk) ∈ t.foreign_keys.enum :=
      List.mk_mem_enum_iff_getElem?.mpr (by rw [hfi])
    have hleft : fkAt (targets.foldl applyFkUpdate tables) ti fi = t'.foreign_keys[fi]? := by
      unfold fkAt
      rw [ht']
    have hright : fkAt tables ti fi = some fk := by
      unfold fkAt
      rw [hti]
      exact hfi
    constructor
    · intro hempty
      have hsome : (fkTargetCols tables fk).isSome :=
        hchar.1 (ti, t) hqmem (fi, fk) hpmem (by simp [hempty])
      have hcols : ∃ rt pk,
          tables.find? (fun tb => tb.name = fk.referenced_table) = some rt ∧
          rt.primary_key = some pk ∧ fkTargetCols tables fk = some pk.columns := by
        unfold fkTargetCols at hsome
        cases hf : tables.find? (fun tb => tb.name = fk.referenced_table) with
        | none =>
          rw [hf] at hsome
          simp at hsome
        | some rt =>
          rw [hf] at hsome
          cases hpk : rt.primary_key with
          | none =>
            simp [hpk] at hsome
          | some pk =>
            exact ⟨rt, pk, rfl, hpk, by simp [fkTargetCols, hf, hpk]⟩
      obtain ⟨rt, pk, hf, hpk, hcolseq⟩ := hcols
      have humem : (ti, fi, pk.columns) ∈ targets := by
        rw [hchar.2]
        refine List.mem_flatten_of_mem (List.mem_map_of_mem (targetGroup tables) hqmem) ?_
        unfold targetGroup
        apply List.mem_map.mpr
        refine ⟨(fi, fk), List.mem_filter.mpr ⟨hpmem, by simp [hempty]⟩, ?_⟩
        simp [hcolseq]
      obtain ⟨us1, us2, hsplit⟩ := List.append_of_mem humem
      rw [hsplit, List.map_append, List.map_cons, List.nodup_append] at hkeys
      have hk1 : (ti, fi) ∉ us1.map targetKey := by
        intro hmem1
        exact hkeys.2.2 hmem1 (List.mem_cons_self _ _)
      have hk2 : (ti, fi) ∉ us2.map targetKey := by
        intro hmem2
        exact (List.nodup_cons.mp hkeys.2.1).1 hmem2
      have hn1 : ∀ v ∈ us1, ¬(v.1 = ti ∧ v.2.1 = fi) := by
        rintro v hv ⟨h1, h2⟩
        exact hk1 (List.mem_map.mpr ⟨v, hv, by simp [targetKey, h1, h2]⟩)
      have hn2 : ∀ v ∈ us2, ¬(v.1 = ti ∧ v.2.1 = fi) := by
        rintro v hv ⟨h1, h2⟩
        exact hk2 (List.mem_map.mpr ⟨v, hv, by simp [targetKey, h1, h2]⟩)
      refine ⟨rt, pk, hf, hpk, ?_⟩
      rw [← hleft, hsplit,
        fkAt_foldl_single us1 us2 (ti, fi, pk.columns) tables ti fi hn1 hn2 ⟨rfl, rfl⟩,
        hright]
      rfl
    · intro hne
      have hnotouch : ∀ u ∈ targets, ¬(u.1 = ti ∧ u.2.1 = fi) := by
        rintro u hu ⟨h1, h2⟩
        rw [hchar.2] at hu
        obtain ⟨g, hg, hug⟩ := List.mem_flatten.mp hu
        obtain ⟨q, hq, hgq⟩ := List.mem_map.mp hg
        rw [← hgq] at hug
        unfold targetGroup at hug
        obtain ⟨p, hpfil, hpeq⟩ := List.mem_map.mp hug
        have hpf := List.mem_filter.mp hpfil
        have hu1 : u.1 = q.1 := by rw [← hpeq]
        have hu2 : u.2.1 = p.1 := by rw [← hpeq]
        have hq1 : q.1 = ti := by rw [← hu1, h1]
        have hp1 : p.1 = fi := by rw [← hu2, h2]
        have hqget : tables[q.1]? = some q.2 := List.mem_enum_iff_getElem?.mp hq
        rw [hq1, hti] at hqget
        have hq2 : q.2 = t := (Option.some.inj hqget).symm
        have hpget : q.2.foreign_keys[p.1]? = some p.2 :=
          List.mem_enum_iff_getElem?.mp hpf.1
        rw [hq2, hp1, hfi] at hpget
        have hp2 : p.2 = fk := (Option.some.inj hpget).symm
        apply hne
        have := hpf.2
        rw [hp2] at this
        simpa [List.isEmpty_iff] using this
      rw [← hleft, fkAt_foldl_no_touch targets tables ti fi hnotouch, hright]

/-- Closed witness for `c3_shorthand_fk_resolution` at concrete inputs. -/
theorem c3_shorthand_fk_resolution_witness :
    resolveShorthandFks fkDemoTables = some fkDemoResolved ∧
    fkDemoResolved.length = fkDemoTables.length :=
  ⟨by decide, (c3_shorthand_fk_resolution fkDemoTables fkDemoResolved (by decide)).1⟩

/-- Closed witness for `c10_shorthand_resolution_precondition` at concrete
inputs: on `fkDemoTables` (whose shorthand reference points at a table with a
primary key) the resolution pass is panic-free. -/
theorem c10_shorthand_resolution_precondition_witness :
    ((fkDemoTables.map Table.name).Nodup) ∧
    (resolveShorthandFks (purge_dangling_foreign_keys fkDemoTables)).isSome :=
  ⟨by decide,
   (c10_shorthand_resolution_precondition fkDemoTables (by decide)).mpr (by decide)⟩

/-! ### `get_indices` (sqlite.rs, lines 416-464) -/

theorem collectIndexColumns_of_all_named :
    ∀ (irs : List IndexInfoRow) (acc : List String),
      irs.all (fun ir => ir.colname.isSome) = true →
      collectIndexColumns irs acc = some (collectIndexColumnsSpecced irs acc) := by
  intro irs
  induction irs with
  | nil => intro acc _; rfl
  | cons r rest ih =>
    intro acc hall
    rw [List.all_cons, Bool.and_eq_true] at hall
    cases hc : r.colname with
    | none => rw [hc] at hall; cases hall.1
    | some n =>
      show collectIndexColumns (r :: rest) acc = _
      unfold collectIndexColumns collectIndexColumnsSpecced
      rw [hc]
      exact ih _ hall.2

theorem collectIndexColumns_of_anon :
    ∀ (irs : List IndexInfoRow) (acc : List String),
      irs.all (fun ir => ir.colname.isSome) = false →
      collectIndexColumns irs acc = none := by
  intro irs
  induction irs with
  | nil => intro acc h; cases h
  | cons r rest ih =>
    intro acc hall
    rw [List.all_cons] at hall
    cases hc : r.colname with
    | none =>
      unfold collectIndexColumns
      rw [hc]
    | some n =>
      have hrest : rest.all (fun ir => ir.colname.isSome) = false := by
        rcases Bool.and_eq_false_iff.mp hall with h | h
        · rw [hc] at h
          cases h
        · exact h
      unfold collectIndexColumns
      rw [hc]
      exact ih _ hrest

theorem getIndicesLoop_eq_takeWhile (infoOf : String → List IndexInfoRow) :
    ∀ l : List IndexListRow,
      getIndicesLoop infoOf l =
        (l.takeWhile (fun r => (infoOf r.name).all (fun ir => ir.colname.isSome))).map
          (fun r => mkIndexFrom r (collectIndexColumnsSpecced (infoOf r.name) [])) := by
  intro l
  induction l with
  | nil => rfl
  | cons r rest ih =>
    by_cases hall : (infoOf r.name).all (fun ir => ir.colname.isSome) = true
    · unfold getIndicesLoop
      rw [collectIndexColumns_of_all_named _ _ hall, ih]
      simp [List.takeWhile_cons, hall]
    · have hfalse : (infoOf r.name).all (fun ir => ir.colname.isSome) = false :=
        Bool.eq_false_iff.mpr hall
      unfold getIndicesLoop
      rw [collectIndexColumns_of_anon _ _ hfalse]
      simp [List.takeWhile_cons, hfalse]

/-- C2 (amended): the index-listing excludes primary-key-backing and partial
indexes, and returns, in order, one index per row of the *longest prefix* of
the remaining rows whose `index_info` entries are all named, each with its
columns placed at their explicit ordinal positions; it agrees with the
spec-worded behaviour (`get_indices_specced`) exactly when no surviving
index has an anonymous (expression-based) column — an anonymous column makes
the labeled break drop the index being built *and* all later indexes. -/
theorem c2_index_listing (rows : List IndexListRow)
    (infoOf : String → List IndexInfoRow) :
    (get_indices rows infoOf =
      (((rows.filter (fun r => r.origin ≠ ("pk"))).filter
          (fun r => !r.partialFlag)).takeWhile
        (fun r => (infoOf r.name).all (fun ir => ir.colname.isSome))).map
        (fun r => mkIndexFrom r (collectIndexColumnsSpecced (infoOf r.name) []))) ∧
    ((∀ r ∈ (rows.filter (fun r => r.origin ≠ ("pk"))).filter (fun r => !r.partialFlag),
        (infoOf r.name).all (fun ir => ir.colname.isSome) = true) →
      get_indices rows infoOf = get_indices_specced rows infoOf) := by
  constructor
  · exact getIndicesLoop_eq_takeWhile infoOf _
  · intro hall
    unfold get_indices get_indices_specced
    rw [getIndicesLoop_eq_takeWhile infoOf]
    rw [List.takeWhile_eq_self_iff.mpr hall]

/-- C2 counterexample: the claim says that on hitting the anonymous column of
`i1` the describer keeps `i1`'s known prefix and still returns every other
non-excluded index — here the fully-named two-column index `i2`.  The code's
`break 'index_loop` instead aborts the whole loop: `get_indices` returns no
index at all, while the spec-worded operation returns both. -/
theorem c2_index_listing_counterexample :
    get_indices c2Rows c2Info = [] ∧
    get_indices_specced c2Rows c2Info =
      [{ name := ("i1"), tpe := IndexType.normal, columns := [] },
       { name := ("i2"), tpe := IndexType.normal, columns := [("a"), ("b")] }] ∧
    ¬ ∃ ix ∈ get_indices c2Rows c2Info, ix.name = ("i2") := by
  refine ⟨by decide, by decide, ?_⟩
  rintro ⟨ix, hix, -⟩
  rw [show get_indices c2Rows c2Info = [] from by decide] at hix
  cases hix

/-- Closed witness for `c2_index_listing` at concrete inputs: with no
anonymous columns the code and the spec-worded operation agree; the partial
index is excluded and the surviving index carries its columns in ordinal
order. -/
theorem c2_index_listing_witness :
    get_indices c2WRows c2WInfo = get_indices_specced c2WRows c2WInfo ∧
    get_indices c2WRows c2WInfo =
      [{ name := ("full_idx"), tpe := IndexType.unique, columns := [("a"), ("b")] }] :=
  ⟨(c2_index_listing c2WRows c2WInfo).2 (by decide), by decide⟩

/-! ### `get_foreign_keys` (sqlite.rs, lines 304-414) -/

theorem string_eq_of_data {a b : String} (h : a.data = b.data) : a = b := by
  cases a
  cases b
  exact congrArg String.mk h

theorem charsLt_asymm : ∀ x y : List Char, charsLt x y = true → charsLt y x = false := by
  intro x
  induction x with
  | nil =>
    intro y h
    cases y with
    | nil => simp [charsLt] at h
    | cons b bs => rfl
  | cons a as ih =>
    intro y h
    cases y with
    | nil => simp [charsLt] at h
    | cons b bs =>
      unfold charsLt at h ⊢
      by_cases hab : a < b
      · rw [if_neg (lt_asymm hab), if_pos hab]
      · rw [if_neg hab] at h
        by_cases hba : b < a
        · rw [if_pos hba] at h
          cases h
        · rw [if_neg hba] at h
          rw [if_neg hba, if_neg hab]
          exact ih bs h

theorem charsLt_eq_of_not : ∀ x y : List Char,
    charsLt x y = false → charsLt y x = false → x = y := by
  intro x
  induction x with
  | nil =>
    intro y h1 _
    cases y with
    | nil => rfl
    | cons b bs => simp [charsLt] at h1
  | cons a as ih =>
    intro y h1 h2
    cases y with
    | nil => simp [charsLt] at h2
    | cons b bs =>
      unfold charsLt at h1 h2
      by_cases hab : a < b
      · rw [if_pos hab] at h1
        cases h1
      · by_cases hba : b < a
        · rw [if_pos hba] at h2
          cases h2
        · rw [if_neg hab, if_neg hba] at h1
          rw [if_neg hba, if_neg hab] at h2
          have hab2 : a = b := le_antisymm (not_lt.mp hba) (not_lt.mp hab)
          rw [hab2, ih bs h1 h2]

theorem charsLt_trans : ∀ x y z : List Char,
    charsLt x y = true → charsLt y z = true → charsLt x z = true := by
  intro x
  induction x with
  | nil =>
    intro y z h1 h2
    cases y with
    | nil => simp [charsLt] at h1
    | cons b bs =>
      cases z with
      | nil => simp [charsLt] at h2
      | cons c cs => rfl
  | cons a as ih =>
    intro y z h1 h2
    cases y with
    | nil => simp [charsLt] at h1
    | cons b bs =>
      cases z with
      | nil => simp [charsLt] at h2
      | cons c cs =>
        unfold charsLt at h1 h2 ⊢
        by_cases hab : a < b
        · by_cases hbc : b < c
          · rw [if_pos (lt_trans hab hbc)]
          · rw [if_neg hbc] at h2
            by_cases hcb : c < b
            · rw [if_pos hcb] at h2
              cases h2
            · have hbceq : b = c := le_antisymm (not_lt.mp hcb) (not_lt.mp hbc)
              rw [if_pos (hbceq ▸ hab)]
        · rw [if_neg hab] at h1
          by_cases hba : b < a
          · rw [if_pos hba] at h1
            cases h1
          · rw [if_neg hba] at h1
            have habeq : a = b := le_antisymm (not_lt.mp hba) (not_lt.mp hab)
            subst habeq
            by_cases hac : a < c
            · rw [if_pos hac]
            · rw [if_neg hac] at h2 ⊢
              by_cases hca : c < a
              · rw [if_pos hca] at h2
                cases h2
              · rw [if_neg hca] at h2 ⊢
                exact ih bs cs h1 h2

theorem strLtB_asymm {a b : String} (h : strLtB a b = true) : strLtB b a = false :=
  charsLt_asymm _ _ h

theorem strLtB_eq {a b : String} (h1 : strLtB a b = false) (h2 : strLtB b a = false) :
    a = b :=
  string_eq_of_data (charsLt_eq_of_not _ _ h1 h2)

theorem strLtB_trans {a b c : String} (h1 : strLtB a b = true) (h2 : strLtB b c = true) :
    strLtB a c = true :=
  charsLt_trans _ _ _ h1 h2

theorem strListLe_total : ∀ x y : List String, strListLe x y = true ∨ strListLe y x = true := by
  intro x
  induction x with
  | nil => intro y; exact Or.inl rfl
  | cons a as ih =>
    intro y
    cases y with
    | nil => exact Or.inr rfl
    | cons b bs =>
      show (if strLtB a b then true else if strLtB b a then false else strListLe as bs) = true ∨
        (if strLtB b a then true else if strLtB a b then false else strListLe bs as) = true
      by_cases hab : strLtB a b = true
      · refine Or.inl ?_
        rw [if_pos hab]
      · by_cases hba : strLtB b a = true
        · refine Or.inr ?_
          rw [if_pos hba]
        · rcases ih bs with h | h
          · refine Or.inl ?_
            rw [if_neg hab, if_neg hba]
            exact h
          · refine Or.inr ?_
            rw [if_neg hba, if_neg hab]
            exact h

theorem strListLe_antisymm : ∀ x y : List String,
    strListLe x y = true → strListLe y x = true → x = y := by
  intro x
  induction x with
  | nil =>
    intro y _ h2
    cases y with
    | nil => rfl
    | cons b bs => simp [strListLe] at h2
  | cons a as ih =>
    intro y h1 h2
    cases y with
    | nil => simp [strListLe] at h1
    | cons b bs =>
      unfold strListLe at h1 h2
      by_cases hab : strLtB a b = true
      · rw [if_neg (by rw [strLtB_asymm hab]; exact Bool.false_ne_true), if_pos hab] at h2
        cases h2
      · by_cases hba : strLtB b a = true
        · rw [if_neg hab, if_pos hba] at h1
          cases h1
        · rw [if_neg hab, if_neg hba] at h1
          rw [if_neg hba, if_neg hab] at h2
          rw [strLtB_eq (Bool.eq_false_iff.mpr hab) (Bool.eq_false_iff.mpr hba),
            ih bs h1 h2]

theorem strListLe_trans : ∀ x y z : List String,
    strListLe x y = true → strListLe y z = true → strListLe x z = true := by
  intro x
  induction x with
  | nil => intro y z _ _; rfl
  | cons a as ih =>
    intro y z h1 h2
    cases y with
    | nil => simp [strListLe] at h1
    | cons b bs =>
      cases z with
      | nil => simp [strListLe] at h2
      | cons c cs =>
        unfold strListLe at h1 h2 ⊢
        by_cases hab : strLtB a b = true
        · by_cases hbc : strLtB b c = true
          · rw [if_pos (strLtB_trans hab hbc)]
          · rw [if_neg hbc] at h2
            by_cases hcb : strLtB c b = true
            · rw [if_pos hcb] at h2
              cases h2
            · have hbceq : b = c :=
                strLtB_eq (Bool.eq_false_iff.mpr hbc) (Bool.eq_false_iff.mpr hcb)
              rw [if_pos (hbceq ▸ hab)]
        · rw [if_neg hab] at h1
          by_cases hba : strLtB b a = true
          · rw [if_pos hba] at h1
            cases h1
          · rw [if_neg hba] at h1
            have habeq : a = b :=
              strLtB_eq (Bool.eq_false_iff.mpr hab) (Bool.eq_false_iff.mpr hba)
            subst habeq
            by_cases hac : strLtB a c = true
            · rw [if_pos hac]
            · rw [if_neg hac] at h2 ⊢
              by_cases hca : strLtB c a = true
              · rw [if_pos hca] at h2
                cases h2
              · rw [if_neg hca] at h2 ⊢
                exact ih bs cs h1 h2

theorem eq_of_perm_of_sorted_key {α : Type} (key : α → List String) :
    ∀ (l1 l2 : List α), l1.Perm l2 →
      l1.Sorted (fun a b => strListLe (key a) (key b) = true) →
      l2.Sorted (fun a b => strListLe (key a) (key b) = true) →
      (l1.map key).Nodup → l1 = l2 := by
  intro l1
  induction l1 with
  | nil =>
    intro l2 hp _ _ _
    exact hp.nil_eq
  | cons a l1t ih =>
    intro l2 hp hs1 hs2 hnd
    cases l2 with
    | nil => cases hp.symm.nil_eq
    | cons b l2t =>
      have hab : a = b := by
        have hamem : a ∈ b :: l2t := hp.mem_iff.mp (List.mem_cons_self a l1t)
        have hbmem : b ∈ a :: l1t := hp.symm.mem_iff.mp (List.mem_cons_self b l2t)
        rcases List.mem_cons.mp hamem with h | hal2
        · exact h
        rcases List.mem_cons.mp hbmem with h | hbl1
        · exact h.symm
        have h1 : strListLe (key a) (key b) = true := List.rel_of_sorted_cons hs1 b hbl1
        have h2 : strListLe (key b) (key a) = true := List.rel_of_sorted_cons hs2 a hal2
        exact List.inj_on_of_nodup_map hnd (List.mem_cons_self a l1t)
          (List.mem_cons_of_mem a hbl1) (strListLe_antisymm _ _ h1 h2)
      subst hab
      have hp' : l1t.Perm l2t := hp.cons_inv
      rw [ih l2t hp' hs1.of_cons hs2.of_cons
        (by simpa [List.map_cons, List.nodup_cons] using hnd.of_cons)]

/-- C9 counterexample: with two foreign keys sharing the referencing-column
list `[a]`, the sort key ties; two enumeration orders of the unordered map's
values — both permutations of the same grouped entries — give different
output orders, so the claimed run-to-run determinism fails. -/
theorem c9_fk_sort_determinism_counterexample :
    buildIntermediateFks c9TieRows = some [(0, c9TieI0), (1, c9TieI1)] ∧
    ([(1, c9TieI1), (0, c9TieI0)] : List (Int × IntermediateForeignKey)).Perm
      [(0, c9TieI0), (1, c9TieI1)] ∧
    get_foreign_keys c9TieRows [(0, c9TieI0), (1, c9TieI1)] ≠
      get_foreign_keys c9TieRows [(1, c9TieI1), (0, c9TieI0)] := by
  refine ⟨by decide, List.Perm.swap _ _ _, by decide⟩

/-- C9 (amended): the foreign-key list returned by `get_foreign_keys` is
always sorted by the referencing-column-name lists; and *when no two foreign
keys of the table share the same referencing-column list*, the output is the
same for every enumeration order of the unordered map, i.e. two runs over the
same catalog rows agree.  With tied keys the relative order of the tied
entries is unspecified (`sort_unstable`), see the counterexample. -/
theorem c9_fk_sort_determinism (rows : List FkRow)
    (ifks order : List (Int × IntermediateForeignKey))
    (hbuild : buildIntermediateFks rows = some ifks)
    (hperm : order.Perm ifks) :
    (sortFks (order.map (fun p => fkFromIntermediate p.2))).Sorted
        (fun a b : ForeignKey => strListLe a.columns b.columns = true) ∧
    (((ifks.map (fun p => fkFromIntermediate p.2)).map ForeignKey.columns).Nodup →
      get_foreign_keys rows order = get_foreign_keys rows ifks) := by
  haveI htotal : IsTotal ForeignKey
      (fun a b : ForeignKey => strListLe a.columns b.columns = true) :=
    ⟨fun a b => strListLe_total a.columns b.columns⟩
  haveI htrans : IsTrans ForeignKey
      (fun a b : ForeignKey => strListLe a.columns b.columns = true) :=
    ⟨fun a b c => strListLe_trans a.columns b.columns c.columns⟩
  have hsorted : ∀ l : List ForeignKey,
      (sortFks l).Sorted (fun a b : ForeignKey => strListLe a.columns b.columns = true) :=
    fun l => List.sorted_insertionSort _ l
  refine ⟨hsorted _, ?_⟩
  intro hnd
  have hmapsperm : (order.map (fun p => fkFromIntermediate p.2)).Perm
      (ifks.map (fun p => fkFromIntermediate p.2)) := hperm.map _
  have hsortperm : (sortFks (order.map (fun p => fkFromIntermediate p.2))).Perm
      (sortFks (ifks.map (fun p => fkFromIntermediate p.2))) :=
    (List.perm_insertionSort _ _).trans
      (hmapsperm.trans (List.perm_insertionSort _ _).symm)
  have hndsorted : ((sortFks (order.map (fun p => fkFromIntermediate p.2))).map
      ForeignKey.columns).Nodup := by
    refine ((hsortperm.trans (List.perm_insertionSort _ _)).map
      ForeignKey.columns).nodup_iff.mpr ?_
    exact hnd
  have heq := eq_of_perm_of_sorted_key ForeignKey.columns
    (sortFks (order.map (fun p => fkFromIntermediate p.2)))
    (sortFks (ifks.map (fun p => fkFromIntermediate p.2)))
    hsortperm (hsorted _) (hsorted _) hndsorted
  unfold get_foreign_keys
  rw [hbuild, heq]

/-- Closed witness for `c9_fk_sort_determinism` at concrete inputs: with
distinct referencing-column lists, the two enumeration orders agree. -/
theorem c9_fk_sort_determinism_witness :
    get_foreign_keys c9DistinctRows [(1, c9DistI1), (0, c9DistI0)] =
      get_foreign_keys c9DistinctRows [(0, c9DistI0), (1, c9DistI1)] :=
  (c9_fk_sort_determinism c9DistinctRows [(0, c9DistI0), (1, c9DistI1)]
    [(1, c9DistI1), (0, c9DistI0)] (by decide) (List.Perm.swap _ _ _)).2 (by decide)

/-! ### `render_script` / `apply_script` (sql_database_step_applier.rs, lines 35-109)

`render_script` renders each step through `render_raw_sql` (dialect flavours,
outside this crate); one step is therefore modelled as its human-readable
description paired with its rendered statement list.  `apply_script` splits a
script into line-indexed `(description, statement-block)` groups with the
regex `^-- \[Step: (.*)\]$` applied per line; the splitting fold is embedded
below, over `List Char` so that `str::lines` has an exact model. -/

theorem splitNl_ne_nil : ∀ cs : List Char, splitNl cs ≠ [] := by
  intro cs
  cases cs with
  | nil => simp [splitNl]
  | cons c rest =>
    unfold splitNl
    cases h : splitNl rest with
    | nil => simp
    | cons a t => by_cases hc : c = ('\n') <;> simp [hc]

theorem splitNl_cons_eq (c : Char) (rest : List Char) :
    splitNl (c :: rest) =
      (if c = ('\n') then [] :: splitNl rest
       else (c :: (splitNl rest).headD []) :: (splitNl rest).tail) := by
  obtain ⟨h, t, heq⟩ := List.exists_cons_of_ne_nil (splitNl_ne_nil rest)
  rw [show splitNl (c :: rest) =
      (match splitNl rest with
        | [] => [[c]]
        | h :: t => if c = ('\n') then [] :: h :: t else (c :: h) :: t) from rfl,
    heq]
  by_cases hc : c = ('\n') <;> simp [hc]

theorem splitNl_append : ∀ a b : List Char,
    splitNl (a ++ b) =
      (splitNl a).dropLast ++
        (((splitNl a).getLastD []) ++ ((splitNl b).headD [])) :: (splitNl b).tail := by
  intro a b
  induction a with
  | nil =>
    obtain ⟨h, t, heq⟩ := List.exists_cons_of_ne_nil (splitNl_ne_nil b)
    simp [splitNl, heq]
  | cons c a2 ih =>
    rw [List.cons_append, splitNl_cons_eq, splitNl_cons_eq c a2]
    obtain ⟨h2, t2, heq2⟩ := List.exists_cons_of_ne_nil (splitNl_ne_nil a2)
    by_cases hc : c = ('\n')
    · rw [if_pos hc, if_pos hc, ih, heq2]
      cases t2 with
      | nil => simp
      | cons p q => simp
    · rw [if_neg hc, if_neg hc, ih, heq2]
      cases t2 with
      | nil => simp
      | cons p q => simp

theorem splitNl_no_nl : ∀ l : List Char, ('\n') ∉ l → splitNl l = [l] := by
  intro l
  induction l with
  | nil => intro _; rfl
  | cons c rest ih =>
    intro h
    have hcn : c ≠ ('\n') := fun hc => h (by rw [← hc]; exact List.mem_cons_self c rest)
    rw [splitNl_cons_eq, if_neg hcn, ih (fun hm => h (List.mem_cons_of_mem c hm))]
    rfl

theorem splitNl_concat_nl : ∀ body : List Char,
    splitNl (body ++ [('\n')]) = splitNl body ++ [[]] := by
  intro body
  induction body with
  | nil => rfl
  | cons c rest ih =>
    rw [List.cons_append, splitNl_cons_eq, splitNl_cons_eq c rest, ih]
    obtain ⟨h2, t2, heq2⟩ := List.exists_cons_of_ne_nil (splitNl_ne_nil rest)
    rw [heq2]
    by_cases hc : c = ('\n') <;> simp [hc]

theorem splitNl_chunk_append (body b : List Char) :
    splitNl ((body ++ [('\n')]) ++ b) = splitNl body ++ splitNl b := by
  rw [splitNl_append, splitNl_concat_nl, List.dropLast_concat, List.getLastD_concat]
  obtain ⟨h2, t2, heq2⟩ := List.exists_cons_of_ne_nil (splitNl_ne_nil b)
  rw [heq2]
  rfl

theorem splitNl_flatten_chunks : ∀ chunks : List (List Char),
    (∀ c ∈ chunks, c = [] ∨ ∃ body, c = body ++ [('\n')]) →
    splitNl chunks.flatten = (chunks.map (fun c => (splitNl c).dropLast)).flatten ++ [[]] := by
  intro chunks
  induction chunks with
  | nil => intro _; rfl
  | cons c rest ih =>
    intro h
    rcases h c (List.mem_cons_self c rest) with rfl | ⟨body, rfl⟩
    · rw [List.flatten_cons, List.nil_append, List.map_cons,
        ih (fun c hc => h c (List.mem_cons_of_mem _ hc)), List.flatten_cons]
      rfl
    · rw [List.flatten_cons, splitNl_chunk_append,
        ih (fun c hc => h c (List.mem_cons_of_mem _ hc)), List.map_cons,
        List.flatten_cons, splitNl_concat_nl, List.dropLast_concat, List.append_assoc]

theorem rustLinesL_flatten (chunks : List (List Char))
    (h : ∀ c ∈ chunks, c = [] ∨ ∃ body, c = body ++ [('\n')]) :
    rustLinesL chunks.flatten =
      (chunks.map (fun c => ((splitNl c).dropLast).map stripCrL)).flatten := by
  unfold rustLinesL
  rw [splitNl_flatten_chunks chunks h, List.getLast?_concat]
  show ((chunks.map (fun c => (splitNl c).dropLast)).flatten ++ [[]]).dropLast.map stripCrL = _
  rw [List.dropLast_concat, List.map_flatten, List.map_map]
  rfl

theorem stripCrL_of_no_cr (l : List Char) (h : ('\r') ∉ l) : stripCrL l = l := by
  unfold stripCrL
  rw [if_neg]
  intro heq
  exact h (List.mem_of_getLast?_eq_some heq)

theorem splitNl_chars : ∀ l : List Char, ∀ p ∈ splitNl l, ∀ ch ∈ p, ch ∈ l := by
  intro l
  induction l with
  | nil =>
    intro p hp ch hch
    rw [show splitNl [] = [[]] from rfl] at hp
    rw [List.mem_singleton.mp hp] at hch
    cases hch
  | cons c rest ih =>
    intro p hp ch hch
    rw [splitNl_cons_eq] at hp
    obtain ⟨h2, t2, heq2⟩ := List.exists_cons_of_ne_nil (splitNl_ne_nil rest)
    by_cases hc : c = ('\n')
    · rw [if_pos hc] at hp
      rcases List.mem_cons.mp hp with rfl | hp2
      · cases hch
      · exact List.mem_cons_of_mem c (ih p hp2 ch hch)
    · rw [if_neg hc, heq2] at hp
      rcases List.mem_cons.mp hp with rfl | hp2
      · rcases List.mem_cons.mp hch with rfl | hch2
        · exact List.mem_cons_self _ _
        · refine List.mem_cons_of_mem c (ih h2 ?_ ch ?_)
          · rw [heq2]; exact List.mem_cons_self _ _
          · simpa using hch2
      · refine List.mem_cons_of_mem c (ih p ?_ ch hch)
        rw [heq2]
        exact List.mem_cons_of_mem h2 hp2

theorem rejoin_splitNl : ∀ body : List Char,
    ((splitNl body).map (fun l => l ++ [('\n')])).flatten = body ++ [('\n')] := by
  intro body
  induction body with
  | nil => rfl
  | cons c rest ih =>
    rw [splitNl_cons_eq]
    obtain ⟨h2, t2, heq2⟩ := List.exists_cons_of_ne_nil (splitNl_ne_nil rest)
    by_cases hc : c = ('\n')
    · rw [if_pos hc, List.map_cons, List.flatten_cons, ih, hc]
      rfl
    · rw [if_neg hc, heq2, List.map_cons, List.flatten_cons]
      rw [heq2, List.map_cons, List.flatten_cons] at ih
      simp only [List.headD_cons, List.tail_cons, List.cons_append, List.append_assoc] at ih ⊢
      rw [ih]

theorem rejoin_stripped (body : List Char) (h : ('\r') ∉ body) :
    (((splitNl body).map stripCrL).map (fun l => l ++ [('\n')])).flatten =
      body ++ [('\n')] := by
  have hmap : (splitNl body).map stripCrL = splitNl body := by
    conv_rhs => rw [← List.map_id (splitNl body)]
    exact List.map_congr_left
      (fun p hp => stripCrL_of_no_cr p (fun hc => h (splitNl_chars body p hp _ hc)))
  rw [hmap, rejoin_splitNl]

theorem stepMarkerCapture_marker (d : List Char) :
    stepMarkerCapture (markerOpenL ++ (d ++ [(']')])) = some d := by
  unfold stepMarkerCapture
  rw [if_pos]
  · rw [show (10 : Nat) = markerOpenL.length from rfl, List.drop_left, List.dropLast_concat]
  · constructor
    · exact List.isPrefixOf_iff_prefix.mpr ⟨d ++ [(']')], rfl⟩
    · rw [← List.append_assoc, List.getLast?_concat]

theorem stepMarkerCapture_none_head (c : Char) (l : List Char) (h : c ≠ ('-')) :
    stepMarkerCapture (c :: l) = none := by
  unfold stepMarkerCapture
  rw [if_neg]
  rintro ⟨hpre, -⟩
  rw [show markerOpenL = ('-') :: (("- [Step: ").data) from rfl] at hpre
  rw [List.isPrefixOf_cons₂, Bool.and_eq_true] at hpre
  exact h (beq_iff_eq.mp hpre.1).symm

theorem stepMarkerCapture_none_of_last (l : List Char)
    (h : l.getLast? ≠ some (']')) : stepMarkerCapture l = none := by
  unfold stepMarkerCapture
  rw [if_neg]
  rintro ⟨-, hlast⟩
  exact h hlast

theorem pushLineL_concat : ∀ (a : List (Nat × List Char × List Char))
    (x : Nat × List Char × List Char) (line : List Char),
    pushLineL (a ++ [x]) line = a ++ [(x.1, x.2.1, x.2.2 ++ line ++ [('\n')])] := by
  intro a
  induction a with
  | nil =>
    intro x line
    obtain ⟨i, d, s⟩ := x
    rfl
  | cons y rest ih =>
    intro x line
    cases hr : rest ++ [x] with
    | nil => cases List.append_ne_nil_of_right_ne_nil rest (by simp) hr
    | cons z w =>
      show pushLineL (y :: (rest ++ [x])) line = _
      rw [hr, show pushLineL (y :: z :: w) line = y :: pushLineL (z :: w) line from rfl,
        ← hr, ih]
      rfl

theorem foldl_stepF_nonmarkers : ∀ (lines : List (List Char)) (n : Nat)
    (a : List (Nat × List Char × List Char)) (x : Nat × List Char × List Char),
    (∀ l ∈ lines, stepMarkerCapture l = none) →
    List.foldl stepF (a ++ [x]) (List.enumFrom n lines)
      = a ++ [(x.1, x.2.1, x.2.2 ++ textL lines)] := by
  intro lines
  induction lines with
  | nil =>
    intro n a x _
    simp [textL]
  | cons l rest ih =>
    intro n a x h
    rw [show List.enumFrom n (l :: rest) = (n, l) :: List.enumFrom (n + 1) rest from rfl,
      List.foldl_cons,
      show stepF (a ++ [x]) (n, l) = pushLineL (a ++ [x]) l from by
        unfold stepF
        rw [h l (List.mem_cons_self _ _)],
      pushLineL_concat,
      ih (n + 1) a _ (fun l2 hl2 => h l2 (List.mem_cons_of_mem _ hl2))]
    simp [textL, List.append_assoc]

theorem foldl_stepF_blocks : ∀ (blocks : List (List Char × List (List Char)))
    (n : Nat) (a : List (Nat × List Char × List Char)) (x : Nat × List Char × List Char),
    (∀ b ∈ blocks, ∀ l ∈ b.2, stepMarkerCapture l = none) →
    (List.foldl stepF (a ++ [x])
        (List.enumFrom n
          ((blocks.map (fun b => (markerOpenL ++ (b.1 ++ [(']')])) :: b.2)).flatten))).map
        (fun g => (g.2.1, g.2.2))
      = (a ++ [x]).map (fun g => (g.2.1, g.2.2)) ++ blocks.map (fun b => (b.1, textL b.2)) := by
  intro blocks
  induction blocks with
  | nil =>
    intro n a x _
    simp
  | cons b rest ih =>
    intro n a x h
    rw [List.map_cons, List.flatten_cons, List.cons_append, List.enumFrom_cons,
      List.foldl_cons,
      show stepF (a ++ [x]) (n, markerOpenL ++ (b.1 ++ [(']')]))
          = (a ++ [x]) ++ [(n, b.1, [])] from by
        unfold stepF
        rw [stepMarkerCapture_marker],
      List.enumFrom_append, List.foldl_append,
      foldl_stepF_nonmarkers b.2 _ (a ++ [x]) (n, b.1, [])
        (fun l hl => h b (List.mem_cons_self _ _) l hl),
      show ((n, b.1, []) : Nat × List Char × List Char).2.2 ++ textL b.2 = textL b.2 from rfl,
      ih _ (a ++ [x]) ((n, b.1, textL b.2))
        (fun b2 hb2 l hl => h b2 (List.mem_cons_of_mem _ hb2) l hl)]
    simp

theorem join_data : ∀ l : List String, (String.join l).data = (l.map String.data).flatten := by
  have key : ∀ (l : List String) (acc : String),
      (l.foldl (fun r s => r ++ s) acc).data = acc.data ++ (l.map String.data).flatten := by
    intro l
    induction l with
    | nil => intro acc; simp
    | cons s t ih =>
      intro acc
      rw [List.foldl_cons, ih, String.data_append, List.map_cons, List.flatten_cons,
        List.append_assoc]
  intro l
  exact key l ("")

theorem render_script_data (warnings unexecutable : List String)
    (steps : List RenderedStep) (hne : steps.isEmpty = false) :
    (render_script warnings unexecutable steps).data =
      ((headerChunksL warnings unexecutable) ++ (steps.map stepChunksL).flatten).flatten := by
  unfold render_script
  rw [hne]
  show (renderWarningBlock warnings unexecutable ++
      String.join (steps.map renderStepBlock)).data = _
  rw [String.data_append, List.flatten_append]
  have hheader : (renderWarningBlock warnings unexecutable).data =
      (headerChunksL warnings unexecutable).flatten := by
    unfold renderWarningBlock headerChunksL
    by_cases hcond : ¬ warnings.isEmpty ∨ ¬ unexecutable.isEmpty
    · rw [if_pos hcond, if_pos hcond]
      simp only [String.data_append, join_data, List.map_map, List.flatten_append,
        List.flatten_cons, List.flatten_nil]
      have hw : ∀ l : List String,
          (l.map (String.data ∘ fun w => ("  - ") ++ w ++ ("\n"))) =
            (l.map (fun w => (("  - ").data ++ w.data) ++ [('\n')])) := by
        intro l
        apply List.map_congr_left
        intro w _
        show (("  - ") ++ w ++ ("\n")).data = _
        rw [String.data_append, String.data_append]
      rw [hw warnings, hw unexecutable]
      simp
    · rw [if_neg hcond, if_neg hcond]
      rfl
  have hsteps : (String.join (steps.map renderStepBlock)).data =
      ((steps.map stepChunksL).flatten).flatten := by
    rw [join_data, List.map_map]
    clear hne hheader
    induction steps with
    | nil => rfl
    | cons s rest ih =>
      rw [List.map_cons, List.flatten_cons, List.map_cons, List.flatten_cons,
        List.flatten_append, ih]
      congr 1
      show (renderStepBlock s).data = (stepChunksL s).flatten
      unfold renderStepBlock stepChunksL
      by_cases hs : s.statements.isEmpty
      · rw [if_pos hs, if_pos hs]
        rfl
      · rw [if_neg hs, if_neg hs]
        rw [String.data_append, String.data_append, String.data_append, join_data,
          List.map_map, List.flatten_cons]
        have hst : (s.statements.map (String.data ∘ fun st => st ++ (";\n"))) =
            (s.statements.map stmtChunkL) := by
          apply List.map_congr_left
          intro st _
          show (st ++ (";\n")).data = stmtChunkL st
          rw [String.data_append]
          unfold stmtChunkL
          simp
        rw [hst]
        unfold markerOpenL
        simp
  rw [hheader, hsteps]

theorem chunkLinesL_chunk (body : List Char) :
    chunkLinesL (body ++ [('\n')]) = (splitNl body).map stripCrL := by
  unfold chunkLinesL
  rw [splitNl_concat_nl, List.dropLast_concat]

theorem stripCrL_last_ne (l : List Char) (c : Char) (h : l.getLast? = some c)
    (hc : c ≠ ('\r')) : stripCrL l = l := by
  unfold stripCrL
  rw [if_neg]
  rw [h]
  simp [hc]

theorem stepMarkerCapture_stripCr_head (c : Char) (l : List Char) (h : c ≠ ('-')) :
    stepMarkerCapture (stripCrL (c :: l)) = none := by
  unfold stripCrL
  by_cases he : (c :: l).getLast? = some ('\r')
  · rw [if_pos he]
    cases l with
    | nil => rfl
    | cons d m =>
      rw [List.dropLast_cons₂]
      exact stepMarkerCapture_none_head c _ h
  · rw [if_neg he]
    exact stepMarkerCapture_none_head c l h

theorem chunksL_wf (warnings unexecutable : List String) (steps : List RenderedStep) :
    ∀ c ∈ (headerChunksL warnings unexecutable) ++ (steps.map stepChunksL).flatten,
      c = [] ∨ ∃ body, c = body ++ [('\n')] := by
  intro c hc
  rcases List.mem_append.mp hc with hh | hs
  · unfold headerChunksL at hh
    by_cases hcond : ¬ warnings.isEmpty ∨ ¬ unexecutable.isEmpty
    · rw [if_pos hcond] at hh
      refine Or.inr ?_
      rcases List.mem_append.mp hh with h1 | h1
      · rcases List.mem_append.mp h1 with h1 | h1
        · rcases List.mem_append.mp h1 with h1 | h1
          · rcases List.mem_cons.mp h1 with rfl | h1
            · exact ⟨_, rfl⟩
            rcases List.mem_cons.mp h1 with rfl | h1
            · exact ⟨_, rfl⟩
            rcases List.mem_cons.mp h1 with rfl | h1
            · exact ⟨[], rfl⟩
            cases h1
          · obtain ⟨w, -, rfl⟩ := List.mem_map.mp h1
            exact ⟨_, rfl⟩
        · obtain ⟨w, -, rfl⟩ := List.mem_map.mp h1
          exact ⟨_, rfl⟩
      · rcases List.mem_cons.mp h1 with rfl | h1
        · exact ⟨[], rfl⟩
        rcases List.mem_cons.mp h1 with rfl | h1
        · exact ⟨_, rfl⟩
        cases h1
    · rw [if_neg hcond] at hh
      cases hh
  · obtain ⟨cl, hcl, hcmem⟩ := List.mem_flatten.mp hs
    obtain ⟨s, -, rfl⟩ := List.mem_map.mp hcl
    unfold stepChunksL at hcmem
    by_cases hse : s.statements.isEmpty
    · rw [if_pos hse] at hcmem
      cases hcmem
    · rw [if_neg hse] at hcmem
      rcases List.mem_cons.mp hcmem with rfl | hstm
      · exact Or.inr ⟨_, rfl⟩
      · obtain ⟨st, -, rfl⟩ := List.mem_map.mp hstm
        exact Or.inr ⟨_, rfl⟩

theorem chunkLinesL_stmtChunk (st : String) :
    chunkLinesL (stmtChunkL st) = stmtLinesL st := by
  rw [show stmtChunkL st = (st.data ++ [(';')]) ++ [('\n')] from rfl, chunkLinesL_chunk]
  rfl

theorem marker_getLast (d : List Char) :
    (markerOpenL ++ (d ++ [(']')])).getLast? = some (']') := by
  rw [← List.append_assoc]
  exact List.getLast?_concat _

theorem marker_no_nl (d : List Char) (hd : ('\n') ∉ d) :
    ('\n') ∉ markerOpenL ++ (d ++ [(']')]) := by
  intro hm
  rcases List.mem_append.mp hm with h1 | h1
  · revert h1
    decide
  · rcases List.mem_append.mp h1 with h2 | h2
    · exact hd h2
    · exact absurd (List.mem_singleton.mp h2) (by decide)

theorem stepLines_of_step (s : RenderedStep) (hd : ('\n') ∉ s.description.data) :
    ((stepChunksL s).map chunkLinesL).flatten =
      if s.statements.isEmpty then []
      else (markerOpenL ++ (s.description.data ++ [(']')]))
        :: (s.statements.map stmtLinesL).flatten := by
  unfold stepChunksL
  by_cases hse : s.statements.isEmpty
  · rw [if_pos hse, if_pos hse]
    rfl
  · rw [if_neg hse, if_neg hse, List.map_cons, List.flatten_cons, chunkLinesL_chunk,
      splitNl_no_nl _ (marker_no_nl s.description.data hd)]
    rw [show ([markerOpenL ++ (s.description.data ++ [(']')])].map stripCrL)
        = [stripCrL (markerOpenL ++ (s.description.data ++ [(']')]))] from rfl]
    rw [stripCrL_last_ne _ _ (marker_getLast s.description.data) (by decide), List.map_map]
    have hmap : s.statements.map (chunkLinesL ∘ stmtChunkL) = s.statements.map stmtLinesL :=
      List.map_congr_left (fun st _ => chunkLinesL_stmtChunk st)
    rw [hmap]
    rfl

theorem stepLines_flatten : ∀ steps : List RenderedStep,
    (∀ s ∈ steps, ('\n') ∉ s.description.data) →
    (((steps.map stepChunksL).flatten).map chunkLinesL).flatten
      = (((steps.filter (fun s => !s.statements.isEmpty)).map stepBlockOf).map
          (fun b => (markerOpenL ++ (b.1 ++ [(']')])) :: b.2)).flatten := by
  intro steps
  induction steps with
  | nil => intro _; rfl
  | cons s t ih =>
    intro h
    rw [List.map_cons, List.flatten_cons, List.map_append, List.flatten_append,
      stepLines_of_step s (h s (List.mem_cons_self s t)),
      ih (fun x hx => h x (List.mem_cons_of_mem s hx)), List.filter_cons]
    by_cases hse : s.statements.isEmpty
    · rw [if_neg (show ¬ ((!s.statements.isEmpty) = true) by simp [hse]), if_pos hse]
      rfl
    · have hb : (!s.statements.isEmpty) = true := by
        rcases Bool.eq_false_or_eq_true s.statements.isEmpty with h | h
        · exact absurd h hse
        · rw [h]
          rfl
      rw [if_pos hb, if_neg hse]
      rfl

theorem script_lines (warnings unexecutable : List String) (steps : List RenderedStep)
    (hne : steps.isEmpty = false)
    (hdesc : ∀ s ∈ steps, ('\n') ∉ s.description.data) :
    rustLinesL (render_script warnings unexecutable steps).data =
      ((headerChunksL warnings unexecutable).map chunkLinesL).flatten
        ++ (((steps.filter (fun s => !s.statements.isEmpty)).map stepBlockOf).map
            (fun b => (markerOpenL ++ (b.1 ++ [(']')])) :: b.2)).flatten := by
  rw [render_script_data warnings unexecutable steps hne,
    rustLinesL_flatten _ (chunksL_wf warnings unexecutable steps)]
  show (((headerChunksL warnings unexecutable) ++ (steps.map stepChunksL).flatten).map
      chunkLinesL).flatten = _
  rw [List.map_append, List.flatten_append, stepLines_flatten steps hdesc]

theorem headerLines_nonmarker (warnings unexecutable : List String)
    (hW : ∀ w ∈ warnings ++ unexecutable, ('\n') ∉ w.data) :
    ∀ l ∈ ((headerChunksL warnings unexecutable).map chunkLinesL).flatten,
      stepMarkerCapture l = none := by
  intro l hl
  obtain ⟨ls, hls, hlmem⟩ := List.mem_flatten.mp hl
  obtain ⟨c, hc, rfl⟩ := List.mem_map.mp hls
  unfold headerChunksL at hc
  by_cases hcond : ¬ warnings.isEmpty ∨ ¬ unexecutable.isEmpty
  · rw [if_pos hcond] at hc
    have hwarn : ∀ w : String, ('\n') ∉ w.data →
        ∀ l2 ∈ chunkLinesL ((("  - ").data ++ w.data) ++ [('\n')]),
          stepMarkerCapture l2 = none := by
      intro w hwnl l2 hl2
      rw [chunkLinesL_chunk] at hl2
      have hnl : ('\n') ∉ ("  - ").data ++ w.data := by
        intro hm
        rcases List.mem_append.mp hm with h1 | h1
        · revert h1
          decide
        · exact hwnl h1
      rw [splitNl_no_nl _ hnl] at hl2
      rw [List.mem_singleton.mp hl2]
      have hx : ("  - ").data ++ w.data
          = (' ') :: ((' ') :: (('-') :: ((' ') :: w.data))) := rfl
      rw [hx]
      exact stepMarkerCapture_stripCr_head _ _ (by decide)
    rcases List.mem_append.mp hc with h1 | h1
    · rcases List.mem_append.mp h1 with h1 | h1
      · rcases List.mem_append.mp h1 with h1 | h1
        · rcases List.mem_cons.mp h1 with rfl | h1
          · rw [show chunkLinesL (("/*").data ++ [('\n')]) = [("/*").data] from rfl] at hlmem
            rw [List.mem_singleton.mp hlmem]
            decide
          rcases List.mem_cons.mp h1 with rfl | h1
          · rw [show chunkLinesL (("  Warnings:").data ++ [('\n')])
                = [("  Warnings:").data] from rfl] at hlmem
            rw [List.mem_singleton.mp hlmem]
            decide
          rcases List.mem_cons.mp h1 with rfl | h1
          · rw [show chunkLinesL [('\n')] = [([] : List Char)] from rfl] at hlmem
            rw [List.mem_singleton.mp hlmem]
            decide
          cases h1
        · obtain ⟨w, hwmem, rfl⟩ := List.mem_map.mp h1
          exact hwarn w (hW w (List.mem_append.mpr (Or.inl hwmem))) _ hlmem
      · obtain ⟨w, hwmem, rfl⟩ := List.mem_map.mp h1
        exact hwarn w (hW w (List.mem_append.mpr (Or.inr hwmem))) _ hlmem
    · rcases List.mem_cons.mp h1 with rfl | h1
      · rw [show chunkLinesL [('\n')] = [([] : List Char)] from rfl] at hlmem
        rw [List.mem_singleton.mp hlmem]
        decide
      rcases List.mem_cons.mp h1 with rfl | h1
      · rw [show chunkLinesL (("*/").data ++ [('\n')]) = [("*/").data] from rfl] at hlmem
        rw [List.mem_singleton.mp hlmem]
        decide
      cases h1
  · rw [if_neg hcond] at hc
    cases hc

theorem stmtLines_nonmarker (st : String) (h1 : ('\r') ∉ st.data)
    (h2 : ∀ p ∈ splitNl st.data, stepMarkerCapture p = none) :
    ∀ l ∈ stmtLinesL st, stepMarkerCapture l = none := by
  intro l hl
  unfold stmtLinesL at hl
  obtain ⟨p, hp, rfl⟩ := List.mem_map.mp hl
  rw [splitNl_append st.data [(';')],
    (show (splitNl [(';')]).headD [] = [(';')] from rfl),
    (show (splitNl [(';')]).tail = [] from rfl)] at hp
  rcases List.mem_append.mp hp with hp | hp
  · have hpmem : p ∈ splitNl st.data := (List.dropLast_sublist _).subset hp
    have hcr : ('\r') ∉ p := fun hc => h1 (splitNl_chars st.data p hpmem _ hc)
    rw [stripCrL_of_no_cr p hcr]
    exact h2 p hpmem
  · rw [List.mem_singleton.mp hp]
    have hlast : (((splitNl st.data).getLastD []) ++ [(';')]).getLast? = some (';') :=
      List.getLast?_concat _
    rw [stripCrL_last_ne _ _ hlast (by decide)]
    refine stepMarkerCapture_none_of_last _ ?_
    rw [hlast]
    decide

theorem textL_append (a b : List (List Char)) : textL (a ++ b) = textL a ++ textL b := by
  unfold textL
  rw [List.map_append, List.flatten_append]

theorem textL_flatten : ∀ X : List (List (List Char)),
    textL X.flatten = (X.map textL).flatten := by
  intro X
  induction X with
  | nil => rfl
  | cons a t ih => rw [List.flatten_cons, textL_append, ih, List.map_cons, List.flatten_cons]

theorem blockText_of_step (s : RenderedStep)
    (h : ∀ st ∈ s.statements, ('\r') ∉ st.data) :
    textL ((s.statements.map stmtLinesL).flatten)
      = (String.join (s.statements.map (fun st => st ++ (";\n")))).data := by
  rw [join_data, List.map_map, textL_flatten, List.map_map]
  congr 1
  refine List.map_congr_left (fun st hst => ?_)
  show textL (stmtLinesL st) = (st ++ (";\n")).data
  have hcr : ('\r') ∉ st.data ++ [(';')] := by
    intro hm
    rcases List.mem_append.mp hm with hx | hx
    · exact h st hst hx
    · exact absurd (List.mem_singleton.mp hx) (by decide)
  show (((splitNl (st.data ++ [(';')])).map stripCrL).map
      (fun l => l ++ [('\n')])).flatten = _
  rw [rejoin_stripped _ hcr, String.data_append]
  rw [show (";\n").data = [(';'), ('\n')] from rfl, List.append_assoc]
  rfl

theorem drop_one_map {α β : Type} (f : α → β) (L : List α) :
    (L.map f).drop 1 = (L.drop 1).map f := by
  cases L with
  | nil => rfl
  | cons a t => rfl

theorem splitStepFold_script (warnings unexecutable : List String)
    (steps : List RenderedStep)
    (hne : steps.isEmpty = false)
    (hW : ∀ w ∈ warnings ++ unexecutable, ('\n') ∉ w.data)
    (hdesc : ∀ s ∈ steps, ('\n') ∉ s.description.data)
    (hstmt : ∀ s ∈ steps, ∀ st ∈ s.statements,
      ('\r') ∉ st.data ∧ ∀ p ∈ splitNl st.data, stepMarkerCapture p = none) :
    (splitStepFold (rustLinesL (render_script warnings unexecutable steps).data)).map
        (fun g => (g.2.1, g.2.2))
      = (([] : List Char),
          textL (((headerChunksL warnings unexecutable).map chunkLinesL).flatten))
        :: (((steps.filter (fun s => !s.statements.isEmpty)).map stepBlockOf).map
            (fun b => (b.1, textL b.2))) := by
  unfold splitStepFold
  rw [script_lines warnings unexecutable steps hne hdesc]
  show (List.foldl stepF [(0, [], [])]
      (List.enumFrom 0
        ((((headerChunksL warnings unexecutable).map chunkLinesL).flatten)
          ++ (((steps.filter (fun s => !s.statements.isEmpty)).map stepBlockOf).map
              (fun b => (markerOpenL ++ (b.1 ++ [(']')])) :: b.2)).flatten))).map
      (fun g => (g.2.1, g.2.2)) = _
  rw [List.enumFrom_append, List.foldl_append]
  have h1 : List.foldl stepF [(0, [], [])]
      (List.enumFrom 0 (((headerChunksL warnings unexecutable).map chunkLinesL).flatten))
      = [((0 : Nat), ([] : List Char),
          textL (((headerChunksL warnings unexecutable).map chunkLinesL).flatten))] := by
    have h := foldl_stepF_nonmarkers
      (((headerChunksL warnings unexecutable).map chunkLinesL).flatten) 0 [] (0, [], [])
      (headerLines_nonmarker warnings unexecutable hW)
    simpa using h
  rw [h1]
  have hbody : ∀ b ∈ (steps.filter (fun s => !s.statements.isEmpty)).map stepBlockOf,
      ∀ l ∈ b.2, stepMarkerCapture l = none := by
    intro b hb l hl
    obtain ⟨s, hsmem, rfl⟩ := List.mem_map.mp hb
    rw [show (stepBlockOf s).2 = (s.statements.map stmtLinesL).flatten from rfl] at hl
    obtain ⟨ls, hls, hlmem⟩ := List.mem_flatten.mp hl
    obtain ⟨st, hstm, rfl⟩ := List.mem_map.mp hls
    have hs2 : s ∈ steps := List.mem_of_mem_filter hsmem
    exact stmtLines_nonmarker st (hstmt s hs2 st hstm).1 (hstmt s hs2 st hstm).2 _ hlmem
  have h2 := foldl_stepF_blocks
    ((steps.filter (fun s => !s.statements.isEmpty)).map stepBlockOf)
    (0 + (((headerChunksL warnings unexecutable).map chunkLinesL).flatten).length) []
    ((0 : Nat), ([] : List Char),
      textL (((headerChunksL warnings unexecutable).map chunkLinesL).flatten))
    hbody
  simpa using h2

/-- C1: rendering a non-empty migration with `render_script` and re-splitting
the script by the step-marker lines the way `apply_script` does (the anchored
pattern over `str::lines`, fold, then `skip(1)`) recovers exactly the ordered
`(description, statement block)` groups of the steps with non-empty statement
lists, where each group's block is the step's statements joined with `;\n` —
provided the descriptions and warnings are single-line and no statement line
itself matches the step-marker pattern or carries a carriage return. -/
theorem c1_render_apply_round_trip
    (warnings unexecutable : List String) (steps : List RenderedStep)
    (hne : steps.isEmpty = false)
    (hW : ∀ w ∈ warnings ++ unexecutable, ('\n') ∉ w.data)
    (hdesc : ∀ s ∈ steps, ('\n') ∉ s.description.data)
    (hstmt : ∀ s ∈ steps, ∀ st ∈ s.statements,
      ('\r') ∉ st.data ∧ ∀ p ∈ splitNl st.data, stepMarkerCapture p = none) :
    ((apply_script_groups (render_script warnings unexecutable steps)).drop 1).map
        (fun g => (g.2.1, g.2.2))
      = (steps.filter (fun s => !s.statements.isEmpty)).map
          (fun s => (s.description,
            String.join (s.statements.map (fun st => st ++ (";\n"))))) := by
  have hfold := splitStepFold_script warnings unexecutable steps hne hW hdesc hstmt
  show (((splitStepFold
      (rustLinesL (render_script warnings unexecutable steps).data)).map
      (fun g => (g.1, (⟨g.2.1⟩ : String), (⟨g.2.2⟩ : String)))).drop 1).map
      (fun g => (g.2.1, g.2.2)) = _
  have key : (((splitStepFold
      (rustLinesL (render_script warnings unexecutable steps).data)).map
      (fun g => (g.1, (⟨g.2.1⟩ : String), (⟨g.2.2⟩ : String)))).drop 1).map
      (fun g => (g.2.1, g.2.2))
      = (((splitStepFold
          (rustLinesL (render_script warnings unexecutable steps).data)).map
          (fun g => (g.2.1, g.2.2))).drop 1).map
          (fun p => ((⟨p.1⟩ : String), (⟨p.2⟩ : String))) := by
    rw [drop_one_map, drop_one_map, List.map_map, List.map_map]
    rfl
  rw [key, hfold]
  show ((((steps.filter (fun s => !s.statements.isEmpty)).map stepBlockOf).map
      (fun b => (b.1, textL b.2))).map
      (fun p => ((⟨p.1⟩ : String), (⟨p.2⟩ : String)))) = _
  rw [List.map_map, List.map_map]
  refine List.map_congr_left (fun s hs => ?_)
  have hcrs : ∀ st ∈ s.statements, ('\r') ∉ st.data :=
    fun st hstm => (hstmt s (List.mem_of_mem_filter hs) st hstm).1
  show ((⟨(stepBlockOf s).1⟩ : String), (⟨textL (stepBlockOf s).2⟩ : String))
      = (s.description, String.join (s.statements.map (fun st => st ++ (";\n"))))
  rw [show (stepBlockOf s).1 = s.description.data from rfl,
    show (stepBlockOf s).2 = (s.statements.map stmtLinesL).flatten from rfl,
    blockText_of_step s hcrs]

theorem c1_render_apply_round_trip_witness :
    c1Steps.isEmpty = false ∧
    ((apply_script_groups (render_script [("dropping column a")] [] c1Steps)).drop 1).map
        (fun g => (g.2.1, g.2.2))
      = [(("CreateTable t"),
          ("CREATE TABLE t (id INT);\nINSERT INTO t VALUES (1);\n"))] :=
  ⟨by decide, by
    rw [c1_render_apply_round_trip [("dropping column a")] [] c1Steps (by decide)
      (by decide) (by decide) (by decide)]
    decide⟩

end Prisma
